import Mathlib

/-
Shallow embedding of the text-normalization and utterance-assembly core of
DHBW-Game/TTS/chatterbox/questions_tts.py.  Python strings are modelled as
List Char; each regex pass of the source is translated into an explicit
left-to-right scanner.  Scanners that consume a variable number of
characters per step take a Nat fuel argument (always instantiated with the
input length, which bounds the number of scanning steps), so that every
definition reduces inside the kernel.
-/

namespace QTTS

/-- Python regex whitespace class (its ASCII part), as used by the source's patterns. -/
def pySpace (c : Char) : Bool :=
  c = ' ' || c = '\t' || c = '\n' || c = '\r' || c = '\x0b' || c = '\x0c'

/-- ASCII letter, the Python character class [a-zA-Z]. -/
def asciiAlpha (c : Char) : Bool := c.isAlpha

/-- Python regex word-character class (its ASCII part). -/
def wordChar (c : Char) : Bool := c.isAlpha || c.isDigit || c = '_'

/-- Replace every occurrence of the single character k by rep
(Python str.replace with a one-character needle), scanning left to right. -/
def replaceChar (k : Char) (rep : List Char) : List Char → List Char
  | [] => []
  | c :: cs => (if c = k then rep else [c]) ++ replaceChar k rep cs

/-- Fuel-driven literal-string substitution, Python re.sub with a fixed
pattern: at each position, if pat is a prefix it is replaced by rep and
scanning resumes after the match, otherwise one character is emitted. -/
def replaceStrGo (pat rep : List Char) : Nat → List Char → List Char
  | 0, l => l
  | _ + 1, [] => []
  | fuel + 1, c :: cs =>
    if !pat.isEmpty && pat.isPrefixOf (c :: cs) then
      rep ++ replaceStrGo pat rep fuel ((c :: cs).drop pat.length)
    else
      c :: replaceStrGo pat rep fuel cs

def replaceStr (pat rep l : List Char) : List Char := replaceStrGo pat rep l.length l

/-- Word-boundary test after a command token: the position is a boundary when
the following character is absent or not a word character (the character
before it, the command's last letter, is always a word character). -/
def boundaryAfter : List Char → Bool
  | [] => true
  | c :: _ => !wordChar c

/-- Fuel-driven substitution for the patterns of the form cmd plus a regex
word boundary (the log, times and cdot rules of LATEX_PAIRS). -/
def replaceCmdGo (cmd rep : List Char) : Nat → List Char → List Char
  | 0, l => l
  | _ + 1, [] => []
  | fuel + 1, c :: cs =>
    if cmd.isPrefixOf (c :: cs) && boundaryAfter ((c :: cs).drop cmd.length) then
      rep ++ replaceCmdGo cmd rep fuel ((c :: cs).drop cmd.length)
    else
      c :: replaceCmdGo cmd rep fuel cs

def replaceCmd (cmd rep l : List Char) : List Char := replaceCmdGo cmd rep l.length l

def headAlpha : List Char → Bool
  | [] => false
  | c :: _ => asciiAlpha c

/-- Catch-all deletion of a backslash followed by one or more ASCII letters,
the last LATEX_PAIRS rule. -/
def dropCmdsGo : Nat → List Char → List Char
  | 0, l => l
  | _ + 1, [] => []
  | fuel + 1, c :: cs =>
    if c = '\\' && headAlpha cs then
      dropCmdsGo fuel (cs.dropWhile asciiAlpha)
    else
      c :: dropCmdsGo fuel cs

def dropCmds (l : List Char) : List Char := dropCmdsGo l.length l

/-- Backtick stripping: a backtick, a nonempty backtick-free span and a
closing backtick are replaced by the span alone; an unpaired or empty pair
fails to match at this position and scanning moves one character on. -/
def stripBTGo : Nat → List Char → List Char
  | 0, l => l
  | _ + 1, [] => []
  | fuel + 1, c :: cs =>
    if c = '`' then
      match cs.dropWhile (fun d => d != '`') with
      | _ :: r =>
        if (cs.takeWhile (fun d => d != '`')).isEmpty then c :: stripBTGo fuel cs
        else cs.takeWhile (fun d => d != '`') ++ stripBTGo fuel r
      | [] => c :: stripBTGo fuel cs
    else
      c :: stripBTGo fuel cs

def stripBT (l : List Char) : List Char := stripBTGo l.length l

/-- Matching of the tail of the Big-O pattern, the part after the O: optional
whitespace, an opening parenthesis, then the greedy group of characters other
than a closing parenthesis (with the regex engine's backtracking behaviour on
an all-whitespace group), then the closing parenthesis.  Returns the captured
group and the rest of the input after the match. -/
def bigOMatch (cs : List Char) : Option (List Char × List Char) :=
  match cs.dropWhile pySpace with
  | c0 :: t2 =>
    if c0 = '(' then
      let full := t2.takeWhile (fun d => d != ')')
      match t2.dropWhile (fun d => d != ')') with
      | _ :: r =>
        if full.isEmpty then none
        else
          let g := full.dropWhile pySpace
          some (if g.isEmpty then [full.getLastD ' '] else g, r)
      | [] => none
    else none
  | [] => none

def boundaryBefore : Option Char → Bool
  | none => true
  | some c => !wordChar c

/-- Big-O rewriting pass: a word-boundary O followed by a parenthesised group
becomes the words Big O of followed by the group.  The scanner carries the
previously emitted source character for the boundary test. -/
def bigOGo : Nat → Option Char → List Char → List Char
  | 0, _, l => l
  | _ + 1, _, [] => []
  | fuel + 1, prev, c :: cs =>
    if c = 'O' && boundaryBefore prev then
      match bigOMatch cs with
      | some (g, r) => "Big O of ".data ++ g ++ bigOGo fuel (some ')') r
      | none => c :: bigOGo fuel (some c) cs
    else
      c :: bigOGo fuel (some c) cs

def bigOSub (l : List Char) : List Char := bigOGo l.length none l

/-- Matching of the tail of the exponent pattern after the leading word
character: optional whitespace, a caret, optional whitespace, then one or
more digits.  Returns the digits and the rest after the match. -/
def expMatch (cs : List Char) : Option (List Char × List Char) :=
  match cs.dropWhile pySpace with
  | c0 :: t2 =>
    if c0 = '^' then
      let t3 := t2.dropWhile pySpace
      let ds := t3.takeWhile Char.isDigit
      if ds.isEmpty then none else some (ds, t3.drop ds.length)
    else none
  | [] => none

/-- Exponent rewriting pass: a word character, a caret and digits become the
phrase to the power of. -/
def expGo : Nat → List Char → List Char
  | 0, l => l
  | _ + 1, [] => []
  | fuel + 1, c :: cs =>
    if wordChar c then
      match expMatch cs with
      | some (ds, r) => c :: (" to the power of ".data ++ ds ++ expGo fuel r)
      | none => c :: expGo fuel cs
    else
      c :: expGo fuel cs

def expSub (l : List Char) : List Char := expGo l.length l

/-- Whitespace-run collapsing: every maximal run of whitespace becomes a
single space. -/
def collapseWS : List Char → List Char
  | [] => []
  | c :: cs =>
    if pySpace c then
      match cs with
      | [] => [' ']
      | d :: _ => if pySpace d then collapseWS cs else ' ' :: collapseWS cs
    else c :: collapseWS cs

def lstrip (l : List Char) : List Char := l.dropWhile pySpace

def rstrip : List Char → List Char
  | [] => []
  | c :: cs =>
    match rstrip cs with
    | [] => if pySpace c then [] else [c]
    | r => c :: r

/-- Python str.strip restricted to the source's whitespace alphabet. -/
def pyStrip (l : List Char) : List Char := rstrip (lstrip l)

/-- Normalizer stage one, the function speakify_math of the source: backtick
stripping, the ordered LATEX_PAIRS substitutions, Big-O and exponent
rewriting, the fixed symbol table, then whitespace collapsing and trimming. -/
def speakify_math (text : List Char) : List Char :=
  let t := stripBT text
  let t := replaceStr "\\(".data [] t
  let t := replaceStr "\\)".data [] t
  let t := replaceStr "\\[".data [] t
  let t := replaceStr "\\]".data [] t
  let t := replaceCmd "\\log".data "log".data t
  let t := replaceCmd "\\times".data " times ".data t
  let t := replaceCmd "\\cdot".data " times ".data t
  let t := replaceStr "\\begin{pmatrix}".data "the matrix: ".data t
  let t := replaceStr "\\end{pmatrix}".data [] t
  let t := replaceStr "\\\\".data "; ".data t
  let t := replaceStr "&".data ", ".data t
  let t := dropCmds t
  let t := bigOSub t
  let t := expSub t
  let t := replaceChar '≥' " greater or equal to ".data t
  let t := replaceChar '≤' " less or equal to ".data t
  let t := replaceChar '→' " arrow ".data t
  let t := replaceChar '∈' " in ".data t
  let t := replaceChar '∑' " sum ".data t
  let t := replaceChar '∏' " product ".data t
  let t := replaceChar '√' " square root of ".data t
  pyStrip (collapseWS t)

/-- Punctuation table of literalize_symbols, in the source's insertion order. -/
def litTable : List (Char × List Char) :=
  [('(', " open parenthesis ".data), (')', " close parenthesis ".data),
   ('[', " open bracket ".data), (']', " close bracket ".data),
   (':', " colon ".data), (',', " comma ".data), ('?', " question mark ".data),
   ('=', " equals ".data), ('+', " plus ".data), ('-', " minus ".data),
   ('*', " times ".data), ('/', " slash ".data), ('^', " caret ".data)]

def literalize_symbols (text : List Char) : List Char :=
  pyStrip (collapseWS (litTable.foldl (fun t p => replaceChar p.1 p.2 t) text))

inductive RenderingMode
  | natural
  | literal
deriving DecidableEq

/-- Full normalizer: speakify_math always, literalize_symbols on top of it in
literal mode. -/
def to_spoken_english (mode : RenderingMode) (raw : List Char) : List Char :=
  match mode with
  | .natural => speakify_math raw
  | .literal => literalize_symbols (speakify_math raw)

def INTRO_PROMPT : List Char := "Not so fast, I have a question for you.".data

def letters : List Char := ['A', 'B', 'C', 'D', 'E', 'F']

/-- ASCII upper-casing; the label regex only ever passes ASCII letters here,
on which Python str.upper agrees with this table. -/
def upperChar : Char → Char
  | 'a' => 'A' | 'b' => 'B' | 'c' => 'C' | 'd' => 'D' | 'e' => 'E' | 'f' => 'F'
  | 'g' => 'G' | 'h' => 'H' | 'i' => 'I' | 'j' => 'J' | 'k' => 'K' | 'l' => 'L'
  | 'm' => 'M' | 'n' => 'N' | 'o' => 'O' | 'p' => 'P' | 'q' => 'Q' | 'r' => 'R'
  | 's' => 'S' | 't' => 'T' | 'u' => 'U' | 'v' => 'V' | 'w' => 'W' | 'x' => 'X'
  | 'y' => 'Y' | 'z' => 'Z' | c => c

/-- Prefix match of the label pattern: optional whitespace, one ASCII letter,
optional whitespace, a colon, optional whitespace, then the rest of the line.
Returns the raw letter and the body group. -/
def matchLabel (l : List Char) : Option (Char × List Char) :=
  match l.dropWhile pySpace with
  | c :: t2 =>
    if asciiAlpha c then
      match t2.dropWhile pySpace with
      | c2 :: t4 =>
        if c2 = ':' then some (c, (t4.dropWhile pySpace).takeWhile (fun d => d != '\n'))
        else none
      | [] => none
    else none
  | [] => none

/-- Body selection shared by the option and answer builders: the regex group
after an explicit letter-colon label, or the whole raw text when there is no
label. -/
def labelBody (opt : List Char) : List Char :=
  match matchLabel opt with
  | some (_, b) => b
  | none => opt

/-- Rendering of one option inside build_question_parts: an explicit label is
reused upper-cased, otherwise the fixed letter at the option's position is
taken; indexing past the letter table is the error branch (none). -/
def render_option (mode : RenderingMode) (i : Nat) (opt : List Char) : Option (List Char) :=
  match matchLabel opt with
  | some (c, body) =>
    some ("Option ".data ++ upperChar c :: ':' :: ' ' :: (to_spoken_english mode body ++ ['.']))
  | none =>
    match letters[i]? with
    | some L => some ("Option ".data ++ L :: ':' :: ' ' :: (to_spoken_english mode opt ++ ['.']))
    | none => none

def spoken_options (mode : RenderingMode) : Nat → List (List Char) → Option (List (List Char))
  | _, [] => some []
  | i, o :: os =>
    match render_option mode i o with
    | none => none
    | some s =>
      match spoken_options mode (i + 1) os with
      | none => none
      | some r => some (s :: r)

/-- Python str.join with the given separator. -/
def joinSep (sep : List Char) : List (List Char) → List Char
  | [] => []
  | x :: xs =>
    match xs with
    | [] => x
    | _ => x ++ sep ++ joinSep sep xs

/-- Assembly of the two spoken parts of one question; the question index and
the topic are accepted and ignored, exactly as in the source. -/
def build_question_parts (mode : RenderingMode) (q_idx : Nat) (topic : List Char)
    (q_text : List Char) (options : List (List Char)) : Option (List Char × List Char) :=
  match spoken_options mode 0 options with
  | none => none
  | some parts =>
    some (INTRO_PROMPT ++ ' ' :: (to_spoken_english mode q_text ++ ['.']),
          joinSep [' '] parts)

/-- Python list indexing with negative-index semantics; none models the
IndexError raised outside the valid range. -/
def pyIndex (l : List (List Char)) (i : Int) : Option (List Char) :=
  if 0 ≤ i ∧ i < (l.length : Int) then l[i.toNat]?
  else if -(l.length : Int) ≤ i ∧ i < 0 then l[((l.length : Int) + i).toNat]?
  else none

/-- Answer sentence builder: the label falls back to A outside the letter
table, the raw option is fetched with Python indexing (none on IndexError),
and a leading letter-colon label on the body is dropped. -/
def build_answer_text (mode : RenderingMode) (correct_idx : Int)
    (options : List (List Char)) : Option (List Char) :=
  let letter := if 0 ≤ correct_idx ∧ correct_idx < (letters.length : Int)
    then letters.getD correct_idx.toNat ' ' else 'A'
  match pyIndex options correct_idx with
  | none => none
  | some raw =>
    some ("The correct answer is option ".data ++ letter :: ':' :: ' ' ::
          (to_spoken_english mode (labelBody raw) ++ ['.']))

def build_explanation_text (mode : RenderingMode) (expl : List Char) : List Char :=
  "Explanation: ".data ++ to_spoken_english mode expl

inductive SpeechKind
  | question
  | options
  | answer
  | explanation
  | combined
deriving DecidableEq

/-- Python truthiness of an optional string: present and nonempty. -/
def optTruthy : Option (List Char) → Bool
  | some s => !s.isEmpty
  | none => false

def optVal : Option (List Char) → List Char
  | some s => s
  | none => []

def parseDigits (l : List Char) : Option Nat :=
  if !l.isEmpty && l.all Char.isDigit then
    some (l.foldl (fun n c => 10 * n + (c.toNat - 48)) 0)
  else none

/-- Python int() on an already stripped string: an optional sign and decimal
digits (the underscore and unicode-digit forms never occur in the data). -/
def pyParseInt (l : List Char) : Option Int :=
  match l with
  | '+' :: ds => (parseDigits ds).map Int.ofNat
  | '-' :: ds => (parseDigits ds).map (fun n => -(n : Int))
  | ds => (parseDigits ds).map Int.ofNat

/-- Answer-segment computation of main: gated by the inclusion flag, the
presence and parsability of the index field and the range check. -/
def spoken_answer (includeAns : Bool) (corrText : Option (List Char))
    (mode : RenderingMode) (options : List (List Char)) : Option (List Char) :=
  if includeAns then
    match corrText with
    | some ct =>
      match pyParseInt (pyStrip ct) with
      | some i =>
        if 0 ≤ i ∧ i < (options.length : Int) then build_answer_text mode i options else none
      | none => none
    | none => none
  else none

/-- Explanation-segment computation of main: gated by the inclusion flag and
the truthiness of the field. -/
def spoken_explanation (includeExpl : Bool) (explText : Option (List Char))
    (mode : RenderingMode) : Option (List Char) :=
  if includeExpl then
    match explText with
    | some et => if et.isEmpty then none else some (build_explanation_text mode (pyStrip et))
    | none => none
  else none

/-- Per-question segmentation policy of main: the question and options units
are always produced; when an answer or explanation is present they become
separate units, or, with the separate-file switch off, one combined unit
joining the truthy parts with single spaces. -/
def speech_units (sepFile : Bool) (part_q part_opts : List Char)
    (ans expl : Option (List Char)) : List (SpeechKind × List Char) :=
  [(SpeechKind.question, part_q), (SpeechKind.options, part_opts)] ++
  (if optTruthy ans || optTruthy expl then
    if sepFile then
      (if optTruthy ans then [(SpeechKind.answer, optVal ans)] else []) ++
      (if optTruthy expl then [(SpeechKind.explanation, optVal expl)] else [])
    else
      [(SpeechKind.combined,
        joinSep [' '] ([part_q, part_opts, optVal ans, optVal expl].filter (fun s => !s.isEmpty)))]
  else [])

/-- Character alphabet of the markup the normalizer acts on: backticks,
backslash commands, the LATEX_PAIRS symbols, the Big-O and exponent pattern
characters and both replacement tables. -/
def markupChars : List Char :=
  ['`', '\\', '&', '^', '(', ')', '[', ']', ':', ',', '?', '=', '+', '-', '*', '/',
   '≥', '≤', '→', '∈', '∑', '∏', '√']

def noMarkup (l : List Char) : Bool := l.all (fun c => !markupChars.contains c)

def litKeys : List Char := litTable.map Prod.fst

/-- All characters any substitution pass of speakify_math can insert: the
replacement words of LATEX_PAIRS, the Big-O and exponent phrases, the symbol
words and the collapsing space. -/
def insertedChars : List Char :=
  "log".data ++ " times ".data ++ "the matrix: ".data ++ "; ".data ++ ", ".data ++
  "Big O of ".data ++ " to the power of ".data ++ " greater or equal to ".data ++
  " less or equal to ".data ++ " arrow ".data ++ " in ".data ++ " sum ".data ++
  " product ".data ++ " square root of ".data ++ [' ']

/-- Freedom from the raw-markup delimiter characters: no backslash (so no
LaTeX command can be formed) and no backtick (so no code span can be formed). -/
def cleanStr (l : List Char) : Prop := '\\' ∉ l ∧ '`' ∉ l

instance (l : List Char) : Decidable (cleanStr l) :=
  inferInstanceAs (Decidable ('\\' ∉ l ∧ '`' ∉ l))

/-- Detector for a backslash immediately followed by an ASCII letter, the
shape of a raw LaTeX command. -/
def hasBSletter : List Char → Bool
  | [] => false
  | [_] => false
  | c :: d :: cs => (c = '\\' && asciiAlpha d) || hasBSletter (d :: cs)

/-- Modelled from the spec: the labelling rule as stated in the contract of
assembleQuestion — reuse an explicit leading letter-colon label upper-cased,
otherwise take the fixed-sequence letter at the option's position. -/
def specLabel (i : Nat) (opt : List Char) : Option Char :=
  match matchLabel opt with
  | some (c, _) => some (upperChar c)
  | none => letters[i]?

/-- Head-of-list whitespace test used by the tidiness invariant. -/
def headNotSpace (l : List Char) : Bool :=
  match l.head? with
  | some d => !pySpace d
  | none => true

/-- Tidiness invariant of collapsed text: every whitespace character is a
plain space and no two whitespace characters are adjacent. -/
def tidy : List Char → Bool
  | [] => true
  | c :: cs => (if pySpace c then (c == ' ') && headNotSpace cs else true) && tidy cs

def topicMarker : List Char := "Topic".data

def questionMarker : List Char := "Question ".data

def NoTopic (l : List Char) : Prop := ¬ topicMarker <:+: l

instance (l : List Char) : Decidable (NoTopic l) :=
  inferInstanceAs (Decidable (¬ topicMarker <:+: l))

def NoQDigit (l : List Char) : Prop :=
  ∀ d : Char, d.isDigit = true → ¬ (questionMarker ++ [d]) <:+: l

/-! Identity of every substitution pass on input free of the characters the
pass's pattern needs, and idempotence of whitespace collapsing and trimming. -/

theorem stripBTGo_id : ∀ (fuel : Nat) (l : List Char), '`' ∉ l → stripBTGo fuel l = l := by
  intro fuel
  induction fuel with
  | zero => intro l _; rfl
  | succ fuel ih =>
    intro l h
    match l with
    | [] => rfl
    | c :: cs =>
      have hc : ¬ c = '`' := fun e => h (e ▸ List.mem_cons_self c cs)
      have hcs : '`' ∉ cs := fun m => h (List.mem_cons_of_mem c m)
      simp [stripBTGo, hc, ih cs hcs]

theorem stripBT_id (l : List Char) (h : '`' ∉ l) : stripBT l = l :=
  stripBTGo_id l.length l h

theorem replaceStrGo_id (pat rep : List Char) (p : Char) (hp : pat.head? = some p) :
    ∀ (fuel : Nat) (l : List Char), p ∉ l → replaceStrGo pat rep fuel l = l := by
  match pat, hp with
  | q :: pt, hp =>
    have hq : q = p := by simpa using hp
    subst hq
    intro fuel
    induction fuel with
    | zero => intro l _; rfl
    | succ fuel ih =>
      intro l h
      match l with
      | [] => rfl
      | c :: cs =>
        have hc : ¬ q = c := fun e => h (e ▸ List.mem_cons_self c cs)
        have hcs : q ∉ cs := fun m => h (List.mem_cons_of_mem c m)
        simp [replaceStrGo, List.isPrefixOf, hc, ih cs hcs]

theorem replaceStr_id (pat rep : List Char) (p : Char) (hp : pat.head? = some p)
    (l : List Char) (h : p ∉ l) : replaceStr pat rep l = l :=
  replaceStrGo_id pat rep p hp l.length l h

theorem replaceCmdGo_id (pat rep : List Char) (p : Char) (hp : pat.head? = some p) :
    ∀ (fuel : Nat) (l : List Char), p ∉ l → replaceCmdGo pat rep fuel l = l := by
  match pat, hp with
  | q :: pt, hp =>
    have hq : q = p := by simpa using hp
    subst hq
    intro fuel
    induction fuel with
    | zero => intro l _; rfl
    | succ fuel ih =>
      intro l h
      match l with
      | [] => rfl
      | c :: cs =>
        have hc : ¬ q = c := fun e => h (e ▸ List.mem_cons_self c cs)
        have hcs : q ∉ cs := fun m => h (List.mem_cons_of_mem c m)
        simp [replaceCmdGo, List.isPrefixOf, hc, ih cs hcs]

theorem replaceCmd_id (pat rep : List Char) (p : Char) (hp : pat.head? = some p)
    (l : List Char) (h : p ∉ l) : replaceCmd pat rep l = l :=
  replaceCmdGo_id pat rep p hp l.length l h

theorem dropCmdsGo_id : ∀ (fuel : Nat) (l : List Char), '\\' ∉ l → dropCmdsGo fuel l = l := by
  intro fuel
  induction fuel with
  | zero => intro l _; rfl
  | succ fuel ih =>
    intro l h
    match l with
    | [] => rfl
    | c :: cs =>
      have hc : ¬ c = '\\' := fun e => h (e ▸ List.mem_cons_self c cs)
      have hcs : '\\' ∉ cs := fun m => h (List.mem_cons_of_mem c m)
      simp [dropCmdsGo, hc, ih cs hcs]

theorem dropCmds_id (l : List Char) (h : '\\' ∉ l) : dropCmds l = l :=
  dropCmdsGo_id l.length l h

theorem bigOMatch_none (cs : List Char) (h : '(' ∉ cs) : bigOMatch cs = none := by
  rcases hd : cs.dropWhile pySpace with _ | ⟨d, t⟩
  · simp [bigOMatch, hd]
  · have hdm : d ∈ cs := by
      have hs := (List.dropWhile_sublist pySpace (l := cs)).subset
      rw [hd] at hs
      exact hs (List.mem_cons_self d t)
    have hdp : ¬ d = '(' := fun e => h (e ▸ hdm)
    simp [bigOMatch, hd, hdp]

theorem bigOGo_id : ∀ (fuel : Nat) (prev : Option Char) (l : List Char),
    '(' ∉ l → bigOGo fuel prev l = l := by
  intro fuel
  induction fuel with
  | zero => intro prev l _; rfl
  | succ fuel ih =>
    intro prev l h
    match l with
    | [] => rfl
    | c :: cs =>
      have hcs : '(' ∉ cs := fun m => h (List.mem_cons_of_mem c m)
      have hm : bigOMatch cs = none := bigOMatch_none cs hcs
      simp [bigOGo, hm, ih _ cs hcs]

theorem bigOSub_id (l : List Char) (h : '(' ∉ l) : bigOSub l = l :=
  bigOGo_id l.length none l h

theorem expMatch_none (cs : List Char) (h : '^' ∉ cs) : expMatch cs = none := by
  rcases hd : cs.dropWhile pySpace with _ | ⟨d, t⟩
  · simp [expMatch, hd]
  · have hdm : d ∈ cs := by
      have hs := (List.dropWhile_sublist pySpace (l := cs)).subset
      rw [hd] at hs
      exact hs (List.mem_cons_self d t)
    have hdp : ¬ d = '^' := fun e => h (e ▸ hdm)
    simp [expMatch, hd, hdp]

theorem expGo_id : ∀ (fuel : Nat) (l : List Char), '^' ∉ l → expGo fuel l = l := by
  intro fuel
  induction fuel with
  | zero => intro l _; rfl
  | succ fuel ih =>
    intro l h
    match l with
    | [] => rfl
    | c :: cs =>
      have hcs : '^' ∉ cs := fun m => h (List.mem_cons_of_mem c m)
      have hm : expMatch cs = none := expMatch_none cs hcs
      simp [expGo, hm, ih cs hcs]

theorem expSub_id (l : List Char) (h : '^' ∉ l) : expSub l = l :=
  expGo_id l.length l h

theorem replaceChar_id (k : Char) (rep : List Char) :
    ∀ l : List Char, k ∉ l → replaceChar k rep l = l := by
  intro l
  induction l with
  | nil => intro _; rfl
  | cons c cs ih =>
    intro h
    have hc : ¬ c = k := fun e => h (e ▸ List.mem_cons_self c cs)
    have hcs : k ∉ cs := fun m => h (List.mem_cons_of_mem c m)
    simp [replaceChar, hc, ih hcs]

theorem tidy_cons_eq (c : Char) (cs : List Char) :
    tidy (c :: cs) = ((if pySpace c = true then (c == ' ') && headNotSpace cs else true)
      && tidy cs) := rfl

theorem tidy_cons (c : Char) (cs : List Char) (h : tidy (c :: cs) = true) : tidy cs = true := by
  rw [tidy_cons_eq, Bool.and_eq_true] at h
  exact h.2

theorem tidy_collapseWS : ∀ l : List Char, tidy (collapseWS l) = true := by
  intro l
  induction l with
  | nil => rfl
  | cons c cs ih =>
    by_cases hc : pySpace c = true
    · match cs with
      | [] => simp [collapseWS, hc, tidy, headNotSpace]
      | d :: cs' =>
        by_cases hd : pySpace d = true
        · simpa [collapseWS, hc, hd] using ih
        · have hstep : collapseWS (c :: d :: cs') = ' ' :: collapseWS (d :: cs') := by
            simp [collapseWS, hc, hd]
          have hco : collapseWS (d :: cs') = d :: collapseWS cs' := by
            simp [collapseWS, hd]
          rw [hstep, hco]
          rw [hco] at ih
          rw [tidy_cons_eq]
          have hsp : pySpace ' ' = true := by decide
          simp [hsp, headNotSpace, hd, ih]
    · have hstep : collapseWS (c :: cs) = c :: collapseWS cs := by
        simp [collapseWS, hc]
      rw [hstep, tidy_cons_eq]
      simp [hc, ih]

theorem collapseWS_of_tidy : ∀ l : List Char, tidy l = true → collapseWS l = l := by
  intro l
  induction l with
  | nil => intro _; rfl
  | cons c cs ih =>
    intro h
    have h2 : tidy cs = true := tidy_cons c cs h
    rw [tidy_cons_eq, Bool.and_eq_true] at h
    by_cases hc : pySpace c = true
    · rw [if_pos hc, Bool.and_eq_true, beq_iff_eq] at h
      obtain ⟨⟨hsp, hns⟩, _⟩ := h
      match cs with
      | [] => simp [collapseWS, hc, hsp]
      | d :: cs' =>
        have hd : pySpace d = false := by simpa [headNotSpace] using hns
        have hstep : collapseWS (c :: d :: cs') = ' ' :: collapseWS (d :: cs') := by
          simp [collapseWS, hc, hd]
        rw [hstep, ih h2, hsp]
    · have hstep : collapseWS (c :: cs) = c :: collapseWS cs := by
        simp [collapseWS, hc]
      rw [hstep, ih h2]

theorem rstrip_head? : ∀ l : List Char, rstrip l ≠ [] → (rstrip l).head? = l.head? := by
  intro l h
  match l with
  | [] => simp [rstrip] at h
  | c :: cs =>
    rcases hr : rstrip cs with _ | ⟨r0, rs⟩
    · by_cases hc : pySpace c = true
      · rw [rstrip.eq_def] at h
        simp [hr, hc] at h
      · simp [rstrip, hr, hc]
    · simp [rstrip, hr]

theorem rstrip_cons_eq (c : Char) (cs : List Char) :
    rstrip (c :: cs) = (match rstrip cs with
      | [] => if pySpace c = true then [] else [c]
      | r => c :: r) := rfl

theorem tidy_rstrip : ∀ l : List Char, tidy l = true → tidy (rstrip l) = true := by
  intro l
  induction l with
  | nil => intro _; rfl
  | cons c cs ih =>
    intro h
    have h2 : tidy cs = true := tidy_cons c cs h
    rcases hr : rstrip cs with _ | ⟨r0, rs⟩
    · rw [rstrip_cons_eq, hr]
      by_cases hc : pySpace c = true
      · simp [hc, tidy]
      · simp [hc, tidy, hc, headNotSpace]
    · have hrne : rstrip cs ≠ [] := by simp [hr]
      have hhd : (rstrip cs).head? = cs.head? := rstrip_head? cs hrne
      have ihr : tidy (r0 :: rs) = true := hr ▸ ih h2
      rw [rstrip_cons_eq, hr]
      rw [tidy_cons_eq]
      rw [tidy_cons_eq, Bool.and_eq_true] at h
      by_cases hc : pySpace c = true
      · rw [if_pos hc, Bool.and_eq_true, beq_iff_eq] at h
        obtain ⟨⟨hsp, hns⟩, _⟩ := h
        have hhns : headNotSpace (r0 :: rs) = true := by
          rw [hr] at hhd
          match cs, hhd with
          | d :: cs', hhd =>
            simp at hhd
            simp only [headNotSpace, List.head?]
            rw [hhd]
            simpa [headNotSpace] using hns
        simp [hc, hsp, hhns, ihr]
      · simp [hc, ihr]

theorem tidy_lstrip : ∀ l : List Char, tidy l = true → tidy (lstrip l) = true := by
  intro l
  induction l with
  | nil => intro _; rfl
  | cons c cs ih =>
    intro h
    by_cases hc : pySpace c = true
    · simpa [lstrip, List.dropWhile, hc] using ih (tidy_cons c cs h)
    · simpa [lstrip, List.dropWhile, hc] using h

theorem rstrip_idem : ∀ l : List Char, rstrip (rstrip l) = rstrip l := by
  intro l
  induction l with
  | nil => rfl
  | cons c cs ih =>
    rcases hr : rstrip cs with _ | ⟨r0, rs⟩
    · rw [rstrip_cons_eq, hr]
      by_cases hc : pySpace c = true
      · simp [hc, rstrip]
      · simp [hc, rstrip, hr]
    · rw [hr] at ih
      rw [rstrip_cons_eq, hr]
      rw [rstrip_cons_eq, ih]

theorem head_lstrip : ∀ (l : List Char) (d : Char) (t : List Char),
    lstrip l = d :: t → pySpace d = false := by
  intro l
  induction l with
  | nil => intro d t h; simp [lstrip] at h
  | cons c cs ih =>
    intro d t h
    by_cases hc : pySpace c = true
    · exact ih d t (by simpa [lstrip, List.dropWhile, hc] using h)
    · simp [lstrip, List.dropWhile, hc] at h
      rw [← h.1]
      simpa using hc

theorem lstrip_eq_self (l : List Char) (h : headNotSpace l = true) : lstrip l = l := by
  match l with
  | [] => rfl
  | c :: cs =>
    have : pySpace c = false := by simpa [headNotSpace] using h
    simp [lstrip, List.dropWhile, this]

theorem pyStrip_idem (l : List Char) : pyStrip (pyStrip l) = pyStrip l := by
  unfold pyStrip
  have hl : lstrip (rstrip (lstrip l)) = rstrip (lstrip l) := by
    apply lstrip_eq_self
    rcases hr : rstrip (lstrip l) with _ | ⟨r0, rs⟩
    · rfl
    · have hne : rstrip (lstrip l) ≠ [] := by simp [hr]
      have hh := rstrip_head? (lstrip l) hne
      rw [hr] at hh
      rcases hls : lstrip l with _ | ⟨d, t⟩
      · rw [hls] at hh; simp at hh
      · rw [hls] at hh
        simp at hh
        have := head_lstrip l d t hls
        simp [headNotSpace, hh, this]
  rw [hl, rstrip_idem]

theorem normal_tail_idem (l : List Char) :
    pyStrip (collapseWS (pyStrip (collapseWS l))) = pyStrip (collapseWS l) := by
  have ht : tidy (pyStrip (collapseWS l)) = true := by
    unfold pyStrip
    exact tidy_rstrip _ (tidy_lstrip _ (tidy_collapseWS l))
  rw [collapseWS_of_tidy _ ht, pyStrip_idem]

/-! Character-membership bounds for the collapsing and trimming passes, and
the identity of the full normalizer on markup-free input. -/

theorem mem_collapseWS : ∀ (l : List Char) (x : Char), x ∈ collapseWS l → x ∈ l ∨ x = ' ' := by
  intro l
  induction l with
  | nil => intro x hx; simp [collapseWS] at hx
  | cons c cs ih =>
    intro x hx
    by_cases hc : pySpace c = true
    · match cs with
      | [] =>
        simp [collapseWS, hc] at hx
        right; exact hx
      | d :: cs' =>
        by_cases hd : pySpace d = true
        · rw [show collapseWS (c :: d :: cs') = collapseWS (d :: cs') from by
            simp [collapseWS, hc, hd]] at hx
          rcases ih x hx with h | h
          · left; exact List.mem_cons_of_mem _ h
          · right; exact h
        · rw [show collapseWS (c :: d :: cs') = ' ' :: collapseWS (d :: cs') from by
            simp [collapseWS, hc, hd]] at hx
          rcases List.mem_cons.mp hx with h | h
          · right; exact h
          · rcases ih x h with h2 | h2
            · left; exact List.mem_cons_of_mem _ h2
            · right; exact h2
    · rw [show collapseWS (c :: cs) = c :: collapseWS cs from by simp [collapseWS, hc]] at hx
      rcases List.mem_cons.mp hx with h | h
      · left; exact h ▸ List.mem_cons_self c cs
      · rcases ih x h with h2 | h2
        · left; exact List.mem_cons_of_mem _ h2
        · right; exact h2

theorem mem_rstrip : ∀ (l : List Char) (x : Char), x ∈ rstrip l → x ∈ l := by
  intro l
  induction l with
  | nil => intro x hx; simp [rstrip] at hx
  | cons c cs ih =>
    intro x hx
    rw [rstrip_cons_eq] at hx
    rcases hr : rstrip cs with _ | ⟨r0, rs⟩
    · rw [hr] at hx
      by_cases hc : pySpace c = true
      · simp [hc] at hx
      · simp [hc] at hx
        exact hx ▸ List.mem_cons_self c cs
    · rw [hr] at hx
      rcases List.mem_cons.mp hx with h | h
      · exact h ▸ List.mem_cons_self c cs
      · exact List.mem_cons_of_mem _ (ih x (hr ▸ h))

theorem mem_lstrip (l : List Char) (x : Char) (h : x ∈ lstrip l) : x ∈ l :=
  (List.dropWhile_sublist pySpace (l := l)).subset h

theorem mem_pyStrip (l : List Char) (x : Char) (h : x ∈ pyStrip l) : x ∈ l :=
  mem_lstrip l x (mem_rstrip (lstrip l) x h)

theorem mem_strip_collapse (l : List Char) (x : Char) (h : x ∈ pyStrip (collapseWS l)) :
    x ∈ l ∨ x = ' ' :=
  mem_collapseWS l x (mem_pyStrip (collapseWS l) x h)

theorem not_mem_of_noMarkup {l : List Char} {x : Char} (h : noMarkup l = true)
    (hx : x ∈ markupChars) : x ∉ l := by
  intro hm
  have h2 := List.all_eq_true.mp h x hm
  simp at h2
  exact h2 hx

theorem speakify_math_eq_of_noMarkup (s : List Char) (h : noMarkup s = true) :
    speakify_math s = pyStrip (collapseWS s) := by
  have hbt : '`' ∉ s := not_mem_of_noMarkup h (by decide)
  have hbs : '\\' ∉ s := not_mem_of_noMarkup h (by decide)
  have hamp : '&' ∉ s := not_mem_of_noMarkup h (by decide)
  have hpar : '(' ∉ s := not_mem_of_noMarkup h (by decide)
  have hcar : '^' ∉ s := not_mem_of_noMarkup h (by decide)
  have hge : '≥' ∉ s := not_mem_of_noMarkup h (by decide)
  have hle : '≤' ∉ s := not_mem_of_noMarkup h (by decide)
  have har : '→' ∉ s := not_mem_of_noMarkup h (by decide)
  have hin : '∈' ∉ s := not_mem_of_noMarkup h (by decide)
  have hsu : '∑' ∉ s := not_mem_of_noMarkup h (by decide)
  have hpr : '∏' ∉ s := not_mem_of_noMarkup h (by decide)
  have hsq : '√' ∉ s := not_mem_of_noMarkup h (by decide)
  simp only [speakify_math]
  rw [stripBT_id s hbt]
  rw [replaceStr_id "\\(".data [] '\\' (by decide) s hbs]
  rw [replaceStr_id "\\)".data [] '\\' (by decide) s hbs]
  rw [replaceStr_id "\\[".data [] '\\' (by decide) s hbs]
  rw [replaceStr_id "\\]".data [] '\\' (by decide) s hbs]
  rw [replaceCmd_id "\\log".data "log".data '\\' (by decide) s hbs]
  rw [replaceCmd_id "\\times".data " times ".data '\\' (by decide) s hbs]
  rw [replaceCmd_id "\\cdot".data " times ".data '\\' (by decide) s hbs]
  rw [replaceStr_id "\\begin{pmatrix}".data "the matrix: ".data '\\' (by decide) s hbs]
  rw [replaceStr_id "\\end{pmatrix}".data [] '\\' (by decide) s hbs]
  rw [replaceStr_id "\\\\".data "; ".data '\\' (by decide) s hbs]
  rw [replaceStr_id "&".data ", ".data '&' (by decide) s hamp]
  rw [dropCmds_id s hbs]
  rw [bigOSub_id s hpar]
  rw [expSub_id s hcar]
  rw [replaceChar_id '≥' _ s hge]
  rw [replaceChar_id '≤' _ s hle]
  rw [replaceChar_id '→' _ s har]
  rw [replaceChar_id '∈' _ s hin]
  rw [replaceChar_id '∑' _ s hsu]
  rw [replaceChar_id '∏' _ s hpr]
  rw [replaceChar_id '√' _ s hsq]

theorem foldl_replaceChar_id (tbl : List (Char × List Char)) :
    ∀ l : List Char, (∀ p ∈ tbl, p.1 ∉ l) →
      tbl.foldl (fun t p => replaceChar p.1 p.2 t) l = l := by
  induction tbl with
  | nil => intro l _; rfl
  | cons q qs ih =>
    intro l h
    have h1 : q.1 ∉ l := h q (List.mem_cons_self _ _)
    simp only [List.foldl_cons]
    rw [replaceChar_id q.1 q.2 l h1]
    exact ih l (fun p hp => h p (List.mem_cons_of_mem _ hp))

theorem literalize_eq_of_free (l : List Char) (h : ∀ p ∈ litTable, p.1 ∉ l) :
    literalize_symbols l = pyStrip (collapseWS l) := by
  unfold literalize_symbols
  rw [foldl_replaceChar_id litTable l h]

/-- Core of claims C1 and C8: on markup-free input the whole normalizer, in
either mode, only collapses whitespace runs and trims the ends. -/
theorem to_spoken_eq_of_noMarkup (mode : RenderingMode) (s : List Char)
    (h : noMarkup s = true) : to_spoken_english mode s = pyStrip (collapseWS s) := by
  cases mode with
  | natural => exact speakify_math_eq_of_noMarkup s h
  | literal =>
    show literalize_symbols (speakify_math s) = _
    rw [speakify_math_eq_of_noMarkup s h]
    have hk : ∀ p ∈ litTable, p.1 ∈ markupChars := by decide
    have hsp : ∀ p ∈ litTable, p.1 ≠ ' ' := by decide
    have hfree : ∀ p ∈ litTable, p.1 ∉ pyStrip (collapseWS s) := by
      intro p hp hmem
      rcases mem_strip_collapse s p.1 hmem with h2 | h2
      · exact not_mem_of_noMarkup h (hk p hp) h2
      · exact hsp p hp h2
    rw [literalize_eq_of_free _ hfree]
    exact normal_tail_idem s

theorem noMarkup_strip_collapse (s : List Char) (h : noMarkup s = true) :
    noMarkup (pyStrip (collapseWS s)) = true := by
  rw [noMarkup, List.all_eq_true]
  intro x hx
  simp only [Bool.not_eq_true']
  rcases mem_strip_collapse s x hx with h2 | h2
  · have := List.all_eq_true.mp h x h2
    simpa using this
  · subst h2; decide

end QTTS

namespace QTTS


theorem dropWhile_head_false (p : Char → Bool) :
    ∀ (l : List Char) (d : Char) (t : List Char), l.dropWhile p = d :: t → p d = false := by
  intro l
  induction l with
  | nil => intro d t h; simp at h
  | cons c cs ih =>
    intro d t h
    by_cases hc : p c = true
    · exact ih d t (by simpa [List.dropWhile, hc] using h)
    · simp [List.dropWhile, hc] at h
      rw [← h.1]
      simpa using hc

theorem dropCmdsGo_noBS : ∀ (fuel : Nat) (l : List Char), l.length ≤ fuel →
    hasBSletter (dropCmdsGo fuel l) = false ∧
      (headAlpha l = false → headAlpha (dropCmdsGo fuel l) = false) := by
  intro fuel
  induction fuel with
  | zero =>
    intro l hl
    have : l = [] := List.eq_nil_of_length_eq_zero (Nat.le_zero.mp hl)
    subst this
    exact ⟨rfl, fun _ => rfl⟩
  | succ fuel ih =>
    intro l hl
    match l, hl with
    | [], _ => exact ⟨rfl, fun _ => rfl⟩
    | c :: cs, hl =>
      have hlen : cs.length ≤ fuel := by simp at hl; omega
      by_cases hc : c = '\\'
      · by_cases hal : headAlpha cs = true
        · have hstep : dropCmdsGo (fuel + 1) (c :: cs) =
              dropCmdsGo fuel (cs.dropWhile asciiAlpha) := by
            simp [dropCmdsGo, hc, hal]
          have hlen2 : (cs.dropWhile asciiAlpha).length ≤ fuel :=
            le_trans (List.dropWhile_sublist asciiAlpha (l := cs)).length_le hlen
          have hda : headAlpha (cs.dropWhile asciiAlpha) = false := by
            rcases hd : cs.dropWhile asciiAlpha with _ | ⟨d, t⟩
            · rfl
            · simp [headAlpha, dropWhile_head_false asciiAlpha cs d t hd]
          obtain ⟨ih1, ih2⟩ := ih _ hlen2
          rw [hstep]
          exact ⟨ih1, fun _ => ih2 hda⟩
        · have hstep : dropCmdsGo (fuel + 1) (c :: cs) = c :: dropCmdsGo fuel cs := by
            simp [dropCmdsGo, hal]
          obtain ⟨ih1, ih2⟩ := ih cs hlen
          rw [hstep]
          constructor
          · rcases hX : dropCmdsGo fuel cs with _ | ⟨d, t⟩
            · rfl
            · have hdX : headAlpha (d :: t) = false := hX ▸ ih2 (by simpa using hal)
              have hdf : asciiAlpha d = false := by simpa [headAlpha] using hdX
              simp [hasBSletter, hdf, hX ▸ ih1]
          · intro _
            rw [hc]
            rfl
      · have hstep : dropCmdsGo (fuel + 1) (c :: cs) = c :: dropCmdsGo fuel cs := by
          simp [dropCmdsGo, hc]
        obtain ⟨ih1, ih2⟩ := ih cs hlen
        rw [hstep]
        constructor
        · rcases hX : dropCmdsGo fuel cs with _ | ⟨d, t⟩
          · rfl
          · simp [hasBSletter, hc, hX ▸ ih1]
        · intro hca
          simpa [headAlpha] using hca

theorem dropCmds_noBSletter (l : List Char) : hasBSletter (dropCmds l) = false :=
  (dropCmdsGo_noBS l.length l (le_refl _)).1

/-! Character-membership bounds for every substitution pass: each pass only
emits characters of its input or of its replacement strings. -/

theorem mem_cons_mono {x c : Char} {X cs : List Char} (h : x ∈ X → x ∈ cs)
    (hx : x ∈ c :: X) : x ∈ c :: cs := by
  rcases List.mem_cons.mp hx with h1 | h1
  · exact h1 ▸ List.mem_cons_self c cs
  · exact List.mem_cons_of_mem _ (h h1)

theorem mem_stripBTGo : ∀ (fuel : Nat) (l : List Char) (x : Char),
    x ∈ stripBTGo fuel l → x ∈ l := by
  intro fuel
  induction fuel with
  | zero => intro l x hx; exact hx
  | succ fuel ih =>
    intro l x hx
    match l with
    | [] => exact hx
    | c :: cs =>
      by_cases hc : c = '`'
      · rcases hd : cs.dropWhile (fun d => d != '`') with _ | ⟨r0, rr⟩
        · rw [show stripBTGo (fuel + 1) (c :: cs) = c :: stripBTGo fuel cs from by
            simp [stripBTGo, hc, hd]] at hx
          exact mem_cons_mono (ih cs x) hx
        · by_cases hemp : (cs.takeWhile (fun d => d != '`')).isEmpty = true
          · rw [show stripBTGo (fuel + 1) (c :: cs) = c :: stripBTGo fuel cs from by
              simp [stripBTGo, hc, hd, hemp]] at hx
            exact mem_cons_mono (ih cs x) hx
          · rw [show stripBTGo (fuel + 1) (c :: cs) =
                cs.takeWhile (fun d => d != '`') ++ stripBTGo fuel rr from by
              simp [stripBTGo, hc, hd, hemp]] at hx
            rcases List.mem_append.mp hx with h | h
            · exact List.mem_cons_of_mem _ ((List.takeWhile_sublist _).subset h)
            · have h2 : x ∈ cs.dropWhile (fun d => d != '`') := by
                rw [hd]; exact List.mem_cons_of_mem r0 (ih rr x h)
              exact List.mem_cons_of_mem _ ((List.dropWhile_sublist _).subset h2)
      · rw [show stripBTGo (fuel + 1) (c :: cs) = c :: stripBTGo fuel cs from by
          simp [stripBTGo, hc]] at hx
        exact mem_cons_mono (ih cs x) hx

theorem mem_replaceStrGo (pat rep : List Char) : ∀ (fuel : Nat) (l : List Char) (x : Char),
    x ∈ replaceStrGo pat rep fuel l → x ∈ l ∨ x ∈ rep := by
  intro fuel
  induction fuel with
  | zero => intro l x hx; exact Or.inl hx
  | succ fuel ih =>
    intro l x hx
    match l with
    | [] => exact Or.inl hx
    | c :: cs =>
      by_cases hcond : (!pat.isEmpty && pat.isPrefixOf (c :: cs)) = true
      · rw [show replaceStrGo pat rep (fuel + 1) (c :: cs) =
            rep ++ replaceStrGo pat rep fuel ((c :: cs).drop pat.length) from by
          simp [replaceStrGo, hcond]] at hx
        rcases List.mem_append.mp hx with h | h
        · exact Or.inr h
        · rcases ih _ x h with h2 | h2
          · exact Or.inl (List.drop_subset _ _ h2)
          · exact Or.inr h2
      · rw [show replaceStrGo pat rep (fuel + 1) (c :: cs) =
            c :: replaceStrGo pat rep fuel cs from by simp [replaceStrGo, hcond]] at hx
        rcases List.mem_cons.mp hx with h | h
        · exact Or.inl (h ▸ List.mem_cons_self c cs)
        · rcases ih cs x h with h2 | h2
          · exact Or.inl (List.mem_cons_of_mem _ h2)
          · exact Or.inr h2

theorem mem_replaceStr (pat rep l : List Char) (x : Char) (hx : x ∈ replaceStr pat rep l) :
    x ∈ l ∨ x ∈ rep :=
  mem_replaceStrGo pat rep l.length l x hx

theorem mem_replaceCmdGo (pat rep : List Char) : ∀ (fuel : Nat) (l : List Char) (x : Char),
    x ∈ replaceCmdGo pat rep fuel l → x ∈ l ∨ x ∈ rep := by
  intro fuel
  induction fuel with
  | zero => intro l x hx; exact Or.inl hx
  | succ fuel ih =>
    intro l x hx
    match l with
    | [] => exact Or.inl hx
    | c :: cs =>
      by_cases hcond : (pat.isPrefixOf (c :: cs) && boundaryAfter ((c :: cs).drop pat.length))
          = true
      · rw [show replaceCmdGo pat rep (fuel + 1) (c :: cs) =
            rep ++ replaceCmdGo pat rep fuel ((c :: cs).drop pat.length) from by
          simp [replaceCmdGo, hcond]] at hx
        rcases List.mem_append.mp hx with h | h
        · exact Or.inr h
        · rcases ih _ x h with h2 | h2
          · exact Or.inl (List.drop_subset _ _ h2)
          · exact Or.inr h2
      · rw [show replaceCmdGo pat rep (fuel + 1) (c :: cs) =
            c :: replaceCmdGo pat rep fuel cs from by simp [replaceCmdGo, hcond]] at hx
        rcases List.mem_cons.mp hx with h | h
        · exact Or.inl (h ▸ List.mem_cons_self c cs)
        · rcases ih cs x h with h2 | h2
          · exact Or.inl (List.mem_cons_of_mem _ h2)
          · exact Or.inr h2

theorem mem_replaceCmd (pat rep l : List Char) (x : Char) (hx : x ∈ replaceCmd pat rep l) :
    x ∈ l ∨ x ∈ rep :=
  mem_replaceCmdGo pat rep l.length l x hx

theorem mem_dropCmdsGo : ∀ (fuel : Nat) (l : List Char) (x : Char),
    x ∈ dropCmdsGo fuel l → x ∈ l := by
  intro fuel
  induction fuel with
  | zero => intro l x hx; exact hx
  | succ fuel ih =>
    intro l x hx
    match l with
    | [] => exact hx
    | c :: cs =>
      by_cases hcond : (c = '\\' && headAlpha cs) = true
      · rw [show dropCmdsGo (fuel + 1) (c :: cs) = dropCmdsGo fuel (cs.dropWhile asciiAlpha)
            from by simp [dropCmdsGo, hcond]] at hx
        exact List.mem_cons_of_mem _ ((List.dropWhile_sublist _).subset (ih _ x hx))
      · rw [show dropCmdsGo (fuel + 1) (c :: cs) = c :: dropCmdsGo fuel cs from by
          simp [dropCmdsGo, hcond]] at hx
        exact mem_cons_mono (ih cs x) hx

theorem mem_dropCmds (l : List Char) (x : Char) (hx : x ∈ dropCmds l) : x ∈ l :=
  mem_dropCmdsGo l.length l x hx

theorem getLastD_mem : ∀ (l : List Char) (a : Char), l ≠ [] → l.getLastD a ∈ l := by
  intro l
  induction l with
  | nil => intro a h; exact absurd rfl h
  | cons c cs ih =>
    intro a _
    match cs, ih with
    | [], _ => exact List.mem_cons_self c []
    | d :: t, ih =>
      exact List.mem_cons_of_mem c (ih c (by simp))

theorem bigOMatch_sub (cs g r : List Char) (h : bigOMatch cs = some (g, r)) :
    (∀ x ∈ g, x ∈ cs) ∧ (∀ x ∈ r, x ∈ cs) := by
  rcases hd : cs.dropWhile pySpace with _ | ⟨c0, t2⟩
  · simp [bigOMatch, hd] at h
  · have hsub_t2 : ∀ y ∈ t2, y ∈ cs := fun y hy =>
      (List.dropWhile_sublist pySpace (l := cs)).subset
        (by rw [hd]; exact List.mem_cons_of_mem c0 hy)
    by_cases hc0 : c0 = '('
    · rcases hd2 : t2.dropWhile (fun d => d != ')') with _ | ⟨r0, rr⟩
      · simp [bigOMatch, hd, hc0, hd2] at h
      · by_cases hemp : (t2.takeWhile (fun d => d != ')')).isEmpty = true
        · simp [bigOMatch, hd, hc0, hd2, hemp] at h
        · have hfull : ∀ y ∈ t2.takeWhile (fun d => d != ')'), y ∈ cs := fun y hy =>
            hsub_t2 y ((List.takeWhile_sublist _).subset hy)
          have hrr : ∀ y ∈ rr, y ∈ cs := fun y hy =>
            hsub_t2 y ((List.dropWhile_sublist _).subset
              (by rw [hd2]; exact List.mem_cons_of_mem r0 hy))
          have hfne : t2.takeWhile (fun d => d != ')') ≠ [] := by
            intro e; rw [e] at hemp; exact hemp rfl
          simp only [bigOMatch, hd, hc0, if_true, hd2, hemp] at h
          rw [if_neg (by simp [hemp])] at h
          by_cases hg : ((t2.takeWhile (fun d => d != ')')).dropWhile pySpace).isEmpty = true
          · rw [if_pos hg] at h
            injection h with h
            injection h with h1 h2
            subst h1; subst h2
            refine ⟨?_, hrr⟩
            intro x hx
            rcases List.mem_singleton.mp hx with rfl
            exact hfull _ (getLastD_mem _ ' ' hfne)
          · rw [if_neg hg] at h
            injection h with h
            injection h with h1 h2
            subst h1; subst h2
            refine ⟨?_, hrr⟩
            intro x hx
            exact hfull x ((List.dropWhile_sublist _).subset hx)
    · simp [bigOMatch, hd, hc0] at h

theorem expMatch_sub (cs ds r : List Char) (h : expMatch cs = some (ds, r)) :
    (∀ x ∈ ds, x ∈ cs) ∧ (∀ x ∈ r, x ∈ cs) := by
  rcases hd : cs.dropWhile pySpace with _ | ⟨c0, t2⟩
  · simp [expMatch, hd] at h
  · have hsub_t2 : ∀ y ∈ t2, y ∈ cs := fun y hy =>
      (List.dropWhile_sublist pySpace (l := cs)).subset
        (by rw [hd]; exact List.mem_cons_of_mem c0 hy)
    have hsub_t3 : ∀ y ∈ t2.dropWhile pySpace, y ∈ cs := fun y hy =>
      hsub_t2 y ((List.dropWhile_sublist _).subset hy)
    by_cases hc0 : c0 = '^'
    · by_cases hds : ((t2.dropWhile pySpace).takeWhile Char.isDigit).isEmpty = true
      · simp [expMatch, hd, hc0, hds] at h
      · simp only [expMatch, hd, hc0, if_true] at h
        rw [if_neg (by simp [hds])] at h
        injection h with h
        injection h with h1 h2
        subst h1; subst h2
        constructor
        · intro x hx
          exact hsub_t3 x ((List.takeWhile_sublist _).subset hx)
        · intro x hx
          exact hsub_t3 x (List.drop_subset _ _ hx)
    · simp [expMatch, hd, hc0] at h

theorem mem_bigOGo : ∀ (fuel : Nat) (prev : Option Char) (l : List Char) (x : Char),
    x ∈ bigOGo fuel prev l → x ∈ l ∨ x ∈ "Big O of ".data := by
  intro fuel
  induction fuel with
  | zero => intro prev l x hx; exact Or.inl hx
  | succ fuel ih =>
    intro prev l x hx
    match l with
    | [] => exact Or.inl hx
    | c :: cs =>
      by_cases hcond : (c = 'O' && boundaryBefore prev) = true
      · rcases hm : bigOMatch cs with _ | ⟨g, r⟩
        · rw [show bigOGo (fuel + 1) prev (c :: cs) = c :: bigOGo fuel (some c) cs from by
            simp [bigOGo, hcond, hm]] at hx
          rcases List.mem_cons.mp hx with h | h
          · exact Or.inl (h ▸ List.mem_cons_self c cs)
          · rcases ih _ cs x h with h2 | h2
            · exact Or.inl (List.mem_cons_of_mem _ h2)
            · exact Or.inr h2
        · rw [show bigOGo (fuel + 1) prev (c :: cs) =
              "Big O of ".data ++ g ++ bigOGo fuel (some ')') r from by
            simp [bigOGo, hcond, hm]] at hx
          rcases List.mem_append.mp hx with h | h
          · rcases List.mem_append.mp h with h1 | h1
            · exact Or.inr h1
            · exact Or.inl (List.mem_cons_of_mem _ ((bigOMatch_sub cs g r hm).1 x h1))
          · rcases ih _ r x h with h2 | h2
            · exact Or.inl (List.mem_cons_of_mem _ ((bigOMatch_sub cs g r hm).2 x h2))
            · exact Or.inr h2
      · rw [show bigOGo (fuel + 1) prev (c :: cs) = c :: bigOGo fuel (some c) cs from by
          simp [bigOGo, hcond]] at hx
        rcases List.mem_cons.mp hx with h | h
        · exact Or.inl (h ▸ List.mem_cons_self c cs)
        · rcases ih _ cs x h with h2 | h2
          · exact Or.inl (List.mem_cons_of_mem _ h2)
          · exact Or.inr h2

theorem mem_bigOSub (l : List Char) (x : Char) (hx : x ∈ bigOSub l) :
    x ∈ l ∨ x ∈ "Big O of ".data :=
  mem_bigOGo l.length none l x hx

theorem mem_expGo : ∀ (fuel : Nat) (l : List Char) (x : Char),
    x ∈ expGo fuel l → x ∈ l ∨ x ∈ " to the power of ".data := by
  intro fuel
  induction fuel with
  | zero => intro l x hx; exact Or.inl hx
  | succ fuel ih =>
    intro l x hx
    match l with
    | [] => exact Or.inl hx
    | c :: cs =>
      by_cases hw : wordChar c = true
      · rcases hm : expMatch cs with _ | ⟨ds, r⟩
        · rw [show expGo (fuel + 1) (c :: cs) = c :: expGo fuel cs from by
            simp [expGo, hw, hm]] at hx
          rcases List.mem_cons.mp hx with h | h
          · exact Or.inl (h ▸ List.mem_cons_self c cs)
          · rcases ih cs x h with h2 | h2
            · exact Or.inl (List.mem_cons_of_mem _ h2)
            · exact Or.inr h2
        · rw [show expGo (fuel + 1) (c :: cs) =
              c :: (" to the power of ".data ++ ds ++ expGo fuel r) from by
            simp [expGo, hw, hm]] at hx
          rcases List.mem_cons.mp hx with h | h
          · exact Or.inl (h ▸ List.mem_cons_self c cs)
          · rcases List.mem_append.mp h with h1 | h1
            · rcases List.mem_append.mp h1 with h2 | h2
              · exact Or.inr h2
              · exact Or.inl (List.mem_cons_of_mem _ ((expMatch_sub cs ds r hm).1 x h2))
            · rcases ih r x h1 with h2 | h2
              · exact Or.inl (List.mem_cons_of_mem _ ((expMatch_sub cs ds r hm).2 x h2))
              · exact Or.inr h2
      · rw [show expGo (fuel + 1) (c :: cs) = c :: expGo fuel cs from by
          simp [expGo, hw]] at hx
        rcases List.mem_cons.mp hx with h | h
        · exact Or.inl (h ▸ List.mem_cons_self c cs)
        · rcases ih cs x h with h2 | h2
          · exact Or.inl (List.mem_cons_of_mem _ h2)
          · exact Or.inr h2

theorem mem_expSub (l : List Char) (x : Char) (hx : x ∈ expSub l) :
    x ∈ l ∨ x ∈ " to the power of ".data :=
  mem_expGo l.length l x hx

theorem mem_replaceChar (k : Char) (rep : List Char) : ∀ (l : List Char) (x : Char),
    x ∈ replaceChar k rep l → (x ∈ l ∧ ¬ x = k) ∨ x ∈ rep := by
  intro l
  induction l with
  | nil => intro x hx; simp [replaceChar] at hx
  | cons c cs ih =>
    intro x hx
    by_cases hc : c = k
    · rw [show replaceChar k rep (c :: cs) = rep ++ replaceChar k rep cs from by
        simp [replaceChar, hc]] at hx
      rcases List.mem_append.mp hx with h | h
      · exact Or.inr h
      · rcases ih x h with ⟨h1, h2⟩ | h1
        · exact Or.inl ⟨List.mem_cons_of_mem _ h1, h2⟩
        · exact Or.inr h1
    · rw [show replaceChar k rep (c :: cs) = c :: replaceChar k rep cs from by
        simp [replaceChar, hc]] at hx
      rcases List.mem_cons.mp hx with h | h
      · exact Or.inl ⟨h ▸ List.mem_cons_self c cs, h ▸ hc⟩
      · rcases ih x h with ⟨h1, h2⟩ | h1
        · exact Or.inl ⟨List.mem_cons_of_mem _ h1, h2⟩
        · exact Or.inr h1

/-- Master membership bound: the first normalizer stage only emits characters
of its input or of the fixed replacement strings. -/
theorem speakify_mem (t : List Char) (x : Char) (hx : x ∈ speakify_math t) :
    x ∈ t ∨ x ∈ insertedChars := by
  have hins : ∀ (rep : List Char), (∀ y ∈ rep, y ∈ insertedChars) →
      x ∈ rep → x ∈ t ∨ x ∈ insertedChars := fun rep h hr => Or.inr (h x hr)
  simp only [speakify_math] at hx
  rcases mem_strip_collapse _ x hx with hx | hx
  swap
  · exact Or.inr (by rw [hx]; decide)
  rcases mem_replaceChar _ _ _ x hx with ⟨hx, _⟩ | hx
  swap
  · exact hins _ (by decide) hx
  rcases mem_replaceChar _ _ _ x hx with ⟨hx, _⟩ | hx
  swap
  · exact hins _ (by decide) hx
  rcases mem_replaceChar _ _ _ x hx with ⟨hx, _⟩ | hx
  swap
  · exact hins _ (by decide) hx
  rcases mem_replaceChar _ _ _ x hx with ⟨hx, _⟩ | hx
  swap
  · exact hins _ (by decide) hx
  rcases mem_replaceChar _ _ _ x hx with ⟨hx, _⟩ | hx
  swap
  · exact hins _ (by decide) hx
  rcases mem_replaceChar _ _ _ x hx with ⟨hx, _⟩ | hx
  swap
  · exact hins _ (by decide) hx
  rcases mem_replaceChar _ _ _ x hx with ⟨hx, _⟩ | hx
  swap
  · exact hins _ (by decide) hx
  rcases mem_expSub _ x hx with hx | hx
  swap
  · exact hins _ (by decide) hx
  rcases mem_bigOSub _ x hx with hx | hx
  swap
  · exact hins _ (by decide) hx
  replace hx := mem_dropCmds _ x hx
  rcases mem_replaceStr _ _ _ x hx with hx | hx
  swap
  · exact hins _ (by decide) hx
  rcases mem_replaceStr _ _ _ x hx with hx | hx
  swap
  · exact hins _ (by decide) hx
  rcases mem_replaceStr _ _ _ x hx with hx | hx
  swap
  · exact hins _ (by decide) hx
  rcases mem_replaceStr _ _ _ x hx with hx | hx
  swap
  · exact hins _ (by decide) hx
  rcases mem_replaceCmd _ _ _ x hx with hx | hx
  swap
  · exact hins _ (by decide) hx
  rcases mem_replaceCmd _ _ _ x hx with hx | hx
  swap
  · exact hins _ (by decide) hx
  rcases mem_replaceCmd _ _ _ x hx with hx | hx
  swap
  · exact hins _ (by decide) hx
  rcases mem_replaceStr _ _ _ x hx with hx | hx
  swap
  · exact hins _ (by decide) hx
  rcases mem_replaceStr _ _ _ x hx with hx | hx
  swap
  · exact hins _ (by decide) hx
  rcases mem_replaceStr _ _ _ x hx with hx | hx
  swap
  · exact hins _ (by decide) hx
  rcases mem_replaceStr _ _ _ x hx with hx | hx
  swap
  · exact hins _ (by decide) hx
  exact Or.inl (mem_stripBTGo t.length t x hx)

theorem not_mem_foldl_replaceChar (x : Char) : ∀ (tbl : List (Char × List Char))
    (l : List Char), x ∉ l → (∀ p ∈ tbl, x ∉ p.2) →
    x ∉ tbl.foldl (fun t p => replaceChar p.1 p.2 t) l := by
  intro tbl
  induction tbl with
  | nil => intro l h _; exact h
  | cons q qs ih =>
    intro l h hrep
    simp only [List.foldl_cons]
    refine ih _ ?_ (fun p hp => hrep p (List.mem_cons_of_mem _ hp))
    intro hmem
    rcases mem_replaceChar q.1 q.2 l x hmem with ⟨h1, _⟩ | h1
    · exact h h1
    · exact hrep q (List.mem_cons_self _ _) h1

theorem foldl_replaceChar_key_not_mem (k : Char) : ∀ (tbl : List (Char × List Char)),
    k ∈ tbl.map Prod.fst → (∀ p ∈ tbl, k ∉ p.2) → ∀ l : List Char,
    k ∉ tbl.foldl (fun t p => replaceChar p.1 p.2 t) l := by
  intro tbl
  induction tbl with
  | nil => intro hk _ l; simp at hk
  | cons q qs ih =>
    intro hk hrep l
    simp only [List.map_cons] at hk
    simp only [List.foldl_cons]
    rcases List.mem_cons.mp hk with hk1 | hk1
    · refine not_mem_foldl_replaceChar k qs _ ?_ (fun p hp => hrep p (List.mem_cons_of_mem _ hp))
      intro hmem
      rcases mem_replaceChar q.1 q.2 l k hmem with ⟨_, h2⟩ | h2
      · exact h2 hk1
      · exact hrep q (List.mem_cons_self _ _) h2
    · exact ih hk1 (fun p hp => hrep p (List.mem_cons_of_mem _ hp)) _

/-- In literal mode no character of the punctuation table survives in the
normalizer's output. -/
theorem lit_absence (t : List Char) (k : Char) (hk : k ∈ litKeys) :
    k ∉ to_spoken_english RenderingMode.literal t := by
  have hrep : ∀ p ∈ litTable, k ∉ p.2 :=
    (by decide : ∀ k ∈ litKeys, ∀ p ∈ litTable, k ∉ p.2) k hk
  have hkey : k ∈ litTable.map Prod.fst := hk
  have hksp : ¬ k = ' ' := (by decide : ∀ k ∈ litKeys, ¬ k = ' ') k hk
  show k ∉ literalize_symbols (speakify_math t)
  unfold literalize_symbols
  intro hmem
  have h1 := mem_pyStrip _ _ hmem
  rcases mem_collapseWS _ _ h1 with h2 | h2
  · exact foldl_replaceChar_key_not_mem k litTable hkey hrep _ h2
  · exact hksp h2

/-- In either mode a character that no replacement string can introduce and
that the raw input lacks is absent from the normalizer's output. -/
theorem to_spoken_not_mem (mode : RenderingMode) (t : List Char) (x : Char)
    (hins : x ∉ insertedChars) (hlit : ∀ p ∈ litTable, x ∉ p.2) (ht : x ∉ t) :
    x ∉ to_spoken_english mode t := by
  have hsp : x ∉ speakify_math t := fun hx => by
    rcases speakify_mem t x hx with h | h
    · exact ht h
    · exact hins h
  cases mode with
  | natural => exact hsp
  | literal =>
    show x ∉ literalize_symbols (speakify_math t)
    unfold literalize_symbols
    intro hmem
    have h1 := mem_pyStrip _ _ hmem
    rcases mem_collapseWS _ _ h1 with h2 | h2
    · exact not_mem_foldl_replaceChar x litTable _ hsp hlit h2
    · exact hins (by rw [h2]; decide)

/-- C1: for every string s that contains no LaTeX/symbol markup (none of the
backtick, backslash, ampersand, Big-O/exponent pattern characters or the
characters of either replacement table) and for every rendering mode,
normalize(s, mode) equals s with whitespace runs collapsed to single spaces
and the ends trimmed. -/
theorem c1_normalize_identity_on_markup_free (mode : RenderingMode) (s : List Char)
    (h : noMarkup s = true) : to_spoken_english mode s = pyStrip (collapseWS s) :=
  to_spoken_eq_of_noMarkup mode s h

theorem c1_witness : noMarkup "hello   markup free world ".data = true ∧
    to_spoken_english RenderingMode.literal "hello   markup free world ".data =
      pyStrip (collapseWS "hello   markup free world ".data) :=
  ⟨by decide, c1_normalize_identity_on_markup_free RenderingMode.literal _ (by decide)⟩

/-- C8: on markup-free input the normalizer is idempotent in either mode:
normalizing a second time changes nothing. -/
theorem c8_idempotent_on_markup_free (mode : RenderingMode) (s : List Char)
    (h : noMarkup s = true) :
    to_spoken_english mode (to_spoken_english mode s) = to_spoken_english mode s := by
  rw [to_spoken_eq_of_noMarkup mode s h,
      to_spoken_eq_of_noMarkup mode _ (noMarkup_strip_collapse s h)]
  exact normal_tail_idem s

theorem c8_witness : noMarkup "  stable once   clean ".data = true ∧
    to_spoken_english RenderingMode.natural
        (to_spoken_english RenderingMode.natural "  stable once   clean ".data) =
      to_spoken_english RenderingMode.natural "  stable once   clean ".data :=
  ⟨by decide, c8_idempotent_on_markup_free RenderingMode.natural _ (by decide)⟩

/-- C6: the catch-all rule deletes every remaining backslash-prefixed
alphabetic command token — its output never contains a backslash followed by
a letter — and, concretely, the normalizer maps the unknown-command input to
just the trailing word with the whitespace trimmed. -/
theorem c6_unknown_commands_deleted :
    (∀ t : List Char, hasBSletter (dropCmds t) = false) ∧
      to_spoken_english RenderingMode.natural "\\foo bar".data = "bar".data :=
  ⟨fun t => dropCmds_noBSletter t, by decide⟩

/-- C10: in literal mode the punctuation table is applied to every occurrence
of its characters anywhere in the text — no table character ever survives in
the output — and in particular the word-internal hyphen of well-known is
spoken as minus. -/
theorem c10_literal_hyphen_minus :
    to_spoken_english RenderingMode.literal "well-known".data = "well minus known".data ∧
      ∀ t : List Char,
        (litKeys.all fun k => !((to_spoken_english RenderingMode.literal t).contains k))
          = true := by
  refine ⟨by decide, fun t => ?_⟩
  rw [List.all_eq_true]
  intro k hk
  have h := lit_absence t k hk
  rw [Bool.not_eq_true']
  exact Bool.eq_false_iff.mpr (fun hc => h (List.elem_iff.mp hc))

/-! Structure and cleanliness of the assembled segments. -/

theorem matchLabel_sub (l : List Char) (c : Char) (b : List Char)
    (h : matchLabel l = some (c, b)) :
    c ∈ l ∧ asciiAlpha c = true ∧ ∀ y ∈ b, y ∈ l := by
  rcases hd : l.dropWhile pySpace with _ | ⟨c1, t2⟩
  · simp [matchLabel, hd] at h
  · have hc1 : c1 ∈ l := (List.dropWhile_sublist pySpace (l := l)).subset
      (by rw [hd]; exact List.mem_cons_self _ _)
    have ht2 : ∀ y ∈ t2, y ∈ l := fun y hy =>
      (List.dropWhile_sublist pySpace (l := l)).subset
        (by rw [hd]; exact List.mem_cons_of_mem _ hy)
    by_cases ha : asciiAlpha c1 = true
    · rcases hd2 : t2.dropWhile pySpace with _ | ⟨c2, t4⟩
      · simp [matchLabel, hd, ha, hd2] at h
      · by_cases hc2 : c2 = ':'
        · simp only [matchLabel, hd, ha, if_true, hd2, hc2] at h
          injection h with h
          injection h with h1 h2
          subst h1
          subst h2
          refine ⟨hc1, ha, ?_⟩
          intro y hy
          have hy1 : y ∈ t4.dropWhile pySpace := (List.takeWhile_sublist _).subset hy
          have hy2 : y ∈ t4 := (List.dropWhile_sublist _).subset hy1
          have hy3 : y ∈ t2.dropWhile pySpace := by
            rw [hd2]; exact List.mem_cons_of_mem _ hy2
          exact ht2 y ((List.dropWhile_sublist _).subset hy3)
        · simp [matchLabel, hd, ha, hd2, hc2] at h
    · simp [matchLabel, hd, ha] at h

theorem asciiAlpha_upperChar (c : Char) (h : asciiAlpha c = true) :
    asciiAlpha (upperChar c) = true := by
  unfold upperChar
  split <;> first | decide | exact h

theorem render_option_not_mem (mode : RenderingMode) (i : Nat) (opt s : List Char) (x : Char)
    (halpha : asciiAlpha x = false) (hins : x ∉ insertedChars)
    (hlit : ∀ p ∈ litTable, x ∉ p.2) (htempl : x ∉ "Option :. ".data) (hopt : x ∉ opt)
    (h : render_option mode i opt = some s) : x ∉ s := by
  intro hs
  have hOpt : x ∉ "Option ".data := fun hm =>
    htempl ((by decide : ∀ y ∈ ("Option ".data : List Char), y ∈ "Option :. ".data) x hm)
  have hcol : ¬ x = ':' := fun e => htempl (e ▸ (by decide : ':' ∈ "Option :. ".data))
  have hspc : ¬ x = ' ' := fun e => htempl (e ▸ (by decide : ' ' ∈ "Option :. ".data))
  have hdot : ¬ x = '.' := fun e => htempl (e ▸ (by decide : '.' ∈ "Option :. ".data))
  rcases hm : matchLabel opt with _ | ⟨cb, body⟩
  · rcases hL : letters[i]? with _ | ⟨L⟩
    · rw [render_option, hm, hL] at h
      exact absurd h (by simp)
    · rw [render_option, hm, hL] at h
      injection h with h
      subst h
      rcases List.mem_append.mp hs with h1 | h1
      · exact hOpt h1
      · rcases List.mem_cons.mp h1 with h2 | h2
        · have hLmem : L ∈ letters := List.getElem?_mem hL
          have : asciiAlpha L = true :=
            (by decide : ∀ y ∈ letters, asciiAlpha y = true) L hLmem
          rw [h2, this] at halpha
          exact absurd halpha (by decide)
        · rcases List.mem_cons.mp h2 with h3 | h3
          · exact hcol h3
          · rcases List.mem_cons.mp h3 with h4 | h4
            · exact hspc h4
            · rcases List.mem_append.mp h4 with h5 | h5
              · exact to_spoken_not_mem mode opt x hins hlit hopt h5
              · exact hdot (List.mem_singleton.mp h5)
  · obtain ⟨hcbm, hcba, hbsub⟩ := matchLabel_sub opt cb body hm
    rw [render_option, hm] at h
    injection h with h
    subst h
    rcases List.mem_append.mp hs with h1 | h1
    · exact hOpt h1
    · rcases List.mem_cons.mp h1 with h2 | h2
      · have : asciiAlpha (upperChar cb) = true := asciiAlpha_upperChar cb hcba
        rw [h2, this] at halpha
        exact absurd halpha (by decide)
      · rcases List.mem_cons.mp h2 with h3 | h3
        · exact hcol h3
        · rcases List.mem_cons.mp h3 with h4 | h4
          · exact hspc h4
          · rcases List.mem_append.mp h4 with h5 | h5
            · have hb : x ∉ body := fun hb => hopt (hbsub x hb)
              exact to_spoken_not_mem mode body x hins hlit hb h5
            · exact hdot (List.mem_singleton.mp h5)

theorem spoken_options_not_mem (mode : RenderingMode) (x : Char)
    (halpha : asciiAlpha x = false) (hins : x ∉ insertedChars)
    (hlit : ∀ p ∈ litTable, x ∉ p.2) (htempl : x ∉ "Option :. ".data) :
    ∀ (i : Nat) (os : List (List Char)) (parts : List (List Char)),
      (∀ o ∈ os, x ∉ o) → spoken_options mode i os = some parts →
      ∀ p ∈ parts, x ∉ p := by
  intro i os
  induction os generalizing i with
  | nil =>
    intro parts _ h p hp
    rw [spoken_options] at h
    injection h with h
    subst h
    simp at hp
  | cons o os ih =>
    intro parts hos h p hp
    rw [spoken_options] at h
    rcases hro : render_option mode i o with _ | ⟨s⟩
    · rw [hro] at h; exact absurd h (by simp)
    · rw [hro] at h
      rcases hrec : spoken_options mode (i + 1) os with _ | ⟨r⟩
      · rw [hrec] at h; exact absurd h (by simp)
      · rw [hrec] at h
        injection h with h
        subst h
        rcases List.mem_cons.mp hp with h1 | h1
        · subst h1
          exact render_option_not_mem mode i o p x halpha hins hlit htempl
            (hos o (List.mem_cons_self _ _)) hro
        · exact ih (i + 1) r (fun o' ho' => hos o' (List.mem_cons_of_mem _ ho')) hrec p h1

theorem mem_joinSep (sep : List Char) : ∀ (ps : List (List Char)) (x : Char),
    x ∈ joinSep sep ps → x ∈ sep ∨ ∃ p ∈ ps, x ∈ p := by
  intro ps
  induction ps with
  | nil => intro x hx; simp [joinSep] at hx
  | cons p ps ih =>
    intro x hx
    match ps, ih with
    | [], _ =>
      exact Or.inr ⟨p, List.mem_cons_self _ _, by simpa [joinSep] using hx⟩
    | q :: ps', ih =>
      rw [show joinSep sep (p :: q :: ps') = p ++ sep ++ joinSep sep (q :: ps') from rfl] at hx
      rcases List.mem_append.mp hx with h1 | h1
      · rcases List.mem_append.mp h1 with h2 | h2
        · exact Or.inr ⟨p, List.mem_cons_self _ _, h2⟩
        · exact Or.inl h2
      · rcases ih x h1 with h2 | ⟨q', hq', hxq⟩
        · exact Or.inl h2
        · exact Or.inr ⟨q', List.mem_cons_of_mem _ hq', hxq⟩

theorem pyIndex_mem (l : List (List Char)) (i : Int) (raw : List Char)
    (h : pyIndex l i = some raw) : raw ∈ l := by
  unfold pyIndex at h
  by_cases h1 : 0 ≤ i ∧ i < (l.length : Int)
  · rw [if_pos h1] at h
    exact List.getElem?_mem h
  · rw [if_neg h1] at h
    by_cases h2 : -(l.length : Int) ≤ i ∧ i < 0
    · rw [if_pos h2] at h
      exact List.getElem?_mem h
    · rw [if_neg h2] at h
      exact absurd h (by simp)

theorem letters_getD_alpha (n : Nat) (x : Char) (halpha : asciiAlpha x = false)
    (hspc : ¬ x = ' ') : ¬ letters.getD n ' ' = x := by
  intro e
  rcases n with _ | _ | _ | _ | _ | _ | m
  · rw [show letters.getD 0 ' ' = 'A' from rfl] at e
    rw [← e] at halpha
    exact absurd halpha (by decide)
  · rw [show letters.getD 1 ' ' = 'B' from rfl] at e
    rw [← e] at halpha
    exact absurd halpha (by decide)
  · rw [show letters.getD 2 ' ' = 'C' from rfl] at e
    rw [← e] at halpha
    exact absurd halpha (by decide)
  · rw [show letters.getD 3 ' ' = 'D' from rfl] at e
    rw [← e] at halpha
    exact absurd halpha (by decide)
  · rw [show letters.getD 4 ' ' = 'E' from rfl] at e
    rw [← e] at halpha
    exact absurd halpha (by decide)
  · rw [show letters.getD 5 ' ' = 'F' from rfl] at e
    rw [← e] at halpha
    exact absurd halpha (by decide)
  · rw [show letters.getD (m + 6) ' ' = ' ' from by
      simp [letters, List.getD]] at e
    exact hspc e.symm

theorem build_answer_not_mem (mode : RenderingMode) (ci : Int) (opts : List (List Char))
    (s : List Char) (x : Char) (halpha : asciiAlpha x = false) (hins : x ∉ insertedChars)
    (hlit : ∀ p ∈ litTable, x ∉ p.2) (htempl : x ∉ "The correct answer is option :. ".data)
    (hopts : ∀ o ∈ opts, x ∉ o) (h : build_answer_text mode ci opts = some s) : x ∉ s := by
  intro hs
  have hT : x ∉ "The correct answer is option ".data := fun hm =>
    htempl ((by decide : ∀ y ∈ ("The correct answer is option ".data : List Char),
      y ∈ "The correct answer is option :. ".data) x hm)
  have hcol : ¬ x = ':' := fun e =>
    htempl (e ▸ (by decide : ':' ∈ "The correct answer is option :. ".data))
  have hspc : ¬ x = ' ' := fun e =>
    htempl (e ▸ (by decide : ' ' ∈ "The correct answer is option :. ".data))
  have hdot : ¬ x = '.' := fun e =>
    htempl (e ▸ (by decide : '.' ∈ "The correct answer is option :. ".data))
  rcases hraw : pyIndex opts ci with _ | ⟨raw⟩
  · rw [build_answer_text, hraw] at h
    exact absurd h (by simp)
  · rw [build_answer_text, hraw] at h
    injection h with h
    subst h
    rcases List.mem_append.mp hs with h1 | h1
    · exact hT h1
    · rcases List.mem_cons.mp h1 with h2 | h2
      · by_cases hrange : 0 ≤ ci ∧ ci < (letters.length : Int)
        · rw [if_pos hrange] at h2
          exact letters_getD_alpha ci.toNat x halpha hspc h2.symm
        · rw [if_neg hrange] at h2
          rw [h2] at halpha
          exact absurd halpha (by decide)
      · rcases List.mem_cons.mp h2 with h3 | h3
        · exact hcol h3
        · rcases List.mem_cons.mp h3 with h4 | h4
          · exact hspc h4
          · rcases List.mem_append.mp h4 with h5 | h5
            · have hrawmem : raw ∈ opts := pyIndex_mem opts ci raw hraw
              have hxraw : x ∉ raw := hopts raw hrawmem
              have hxb : x ∉ labelBody raw := by
                rcases hml : matchLabel raw with _ | ⟨cb, body⟩
                · simp only [labelBody, hml]
                  exact hxraw
                · simp only [labelBody, hml]
                  obtain ⟨_, _, hbsub⟩ := matchLabel_sub raw cb body hml
                  exact fun hb => hxraw (hbsub x hb)
              exact to_spoken_not_mem mode (labelBody raw) x hins hlit hxb h5
            · exact hdot (List.mem_singleton.mp h5)

/-- C2 fails as stated: in literal mode the assembled segments contain
configured punctuation added by the fixed templates (the intro's comma), the
normalizer can be made to leave a backtick-delimited span, and it can be made
to emit a backslash-letter command. -/
theorem c2_counterexample :
    (∃ pq po : List Char,
        build_question_parts RenderingMode.literal 1 [] "x".data ["y".data] = some (pq, po) ∧
          ',' ∈ pq) ∧
      (∃ mid : List Char,
        to_spoken_english RenderingMode.natural "``&``".data = '`' :: (mid ++ ['`']) ∧
          mid ≠ []) ∧
      hasBSletter (to_spoken_english RenderingMode.natural "O(a\\\\])b".data) = true :=
  ⟨⟨"Not so fast, I have a question for you. x.".data,
      "Option A: y.".data, by decide, by decide⟩,
    ⟨", ".data, by decide, by decide⟩, by decide⟩

/-- C2 amended: every segment built from question, option and explanation
texts that contain no backslash and no backtick characters itself contains no
backslash and no backtick (hence no raw LaTeX command and no
backtick-delimited code), and in literal mode the normalized bodies embedded
in the segments are free of every configured punctuation character — the
fixed segment templates, however, add their own punctuation (the intro's
comma, the label colons, the sentence periods) around them. -/
theorem c2_amended_segments_clean :
    (∀ (mode : RenderingMode) (qi : Nat) (topic q : List Char) (opts : List (List Char))
        (pq po : List Char), cleanStr q → (∀ o ∈ opts, cleanStr o) →
        build_question_parts mode qi topic q opts = some (pq, po) →
        cleanStr pq ∧ cleanStr po) ∧
      (∀ (mode : RenderingMode) (ci : Int) (opts : List (List Char)) (s : List Char),
        (∀ o ∈ opts, cleanStr o) → build_answer_text mode ci opts = some s → cleanStr s) ∧
      (∀ (mode : RenderingMode) (e : List Char), cleanStr e →
        cleanStr (build_explanation_text mode e)) ∧
      (∀ (t : List Char) (k : Char), k ∈ litKeys →
        k ∉ to_spoken_english RenderingMode.literal t) := by
  have key : ∀ (x : Char), asciiAlpha x = false → x ∉ insertedChars →
      (∀ p ∈ litTable, x ∉ p.2) → x ∉ "Option :. ".data →
      x ∉ INTRO_PROMPT → ∀ (mode : RenderingMode) (qi : Nat) (topic q : List Char)
      (opts : List (List Char)) (pq po : List Char), x ∉ q → (∀ o ∈ opts, x ∉ o) →
      build_question_parts mode qi topic q opts = some (pq, po) → x ∉ pq ∧ x ∉ po := by
    intro x halpha hins hlit htempl hintro mode qi topic q opts pq po hq hopts h
    have hspc : ¬ x = ' ' := fun e => htempl (e ▸ (by decide : ' ' ∈ "Option :. ".data))
    have hdot : ¬ x = '.' := fun e => htempl (e ▸ (by decide : '.' ∈ "Option :. ".data))
    rcases hso : spoken_options mode 0 opts with _ | ⟨parts⟩
    · rw [build_question_parts, hso] at h
      exact absurd h (by simp)
    · rw [build_question_parts, hso] at h
      injection h with h
      injection h with h1 h2
      subst h1
      subst h2
      constructor
      · intro hm
        rcases List.mem_append.mp hm with h1 | h1
        · exact hintro h1
        · rcases List.mem_cons.mp h1 with h2 | h2
          · exact hspc h2
          · rcases List.mem_append.mp h2 with h3 | h3
            · exact to_spoken_not_mem mode q x hins hlit hq h3
            · exact hdot (List.mem_singleton.mp h3)
      · intro hm
        rcases mem_joinSep [' '] parts x hm with h1 | ⟨p, hp, hxp⟩
        · exact hspc (List.mem_singleton.mp h1)
        · exact spoken_options_not_mem mode x halpha hins hlit htempl 0 opts parts
            hopts hso p hp hxp
  refine ⟨?_, ?_, ?_, fun t k hk => lit_absence t k hk⟩
  · intro mode qi topic q opts pq po hq hopts h
    have h1 := key '\\' (by decide) (by decide) (by decide) (by decide) (by decide)
      mode qi topic q opts pq po hq.1 (fun o ho => (hopts o ho).1) h
    have h2 := key '`' (by decide) (by decide) (by decide) (by decide) (by decide)
      mode qi topic q opts pq po hq.2 (fun o ho => (hopts o ho).2) h
    exact ⟨⟨h1.1, h2.1⟩, ⟨h1.2, h2.2⟩⟩
  · intro mode ci opts s hopts h
    exact ⟨build_answer_not_mem mode ci opts s '\\' (by decide) (by decide) (by decide)
        (by decide) (fun o ho => (hopts o ho).1) h,
      build_answer_not_mem mode ci opts s '`' (by decide) (by decide) (by decide)
        (by decide) (fun o ho => (hopts o ho).2) h⟩
  · intro mode e he
    have key2 : ∀ (x : Char), x ∉ insertedChars → (∀ p ∈ litTable, x ∉ p.2) →
        x ∉ "Explanation: ".data → x ∉ e → x ∉ build_explanation_text mode e := by
      intro x hins hlit htempl hx hm
      rcases List.mem_append.mp hm with h1 | h1
      · exact htempl h1
      · exact to_spoken_not_mem mode e x hins hlit hx h1
    exact ⟨key2 '\\' (by decide) (by decide) (by decide) he.1,
      key2 '`' (by decide) (by decide) (by decide) he.2⟩

/-- C3 fails as stated: for the nonempty options list with one element and
the out-of-range index 1, build_answer_text does not return a string at all —
the Python indexing raises, modelled as none. -/
theorem c3_counterexample :
    build_answer_text RenderingMode.natural 1 ["x".data] = none := by decide

/-- C3 amended: an out-of-range correctIndex falls back to label A exactly
when Python indexing still accepts it — an index beyond the six-letter table
but inside the options list, or a negative index not before the start; such
calls return a string beginning with the option-A phrase, while any other
out-of-range index raises (none). -/
theorem c3_amended_fallback_label_A (mode : RenderingMode) (opts : List (List Char))
    (ci : Int) (hne : opts ≠ [])
    (hrange : (6 ≤ ci ∧ ci < (opts.length : Int)) ∨ (-(opts.length : Int) ≤ ci ∧ ci < 0)) :
    ∃ s : List Char, build_answer_text mode ci opts = some s ∧
      "The correct answer is option A: ".data <+: s := by
  have hlen6 : (letters.length : Int) = 6 := by simp [letters]
  have hletter : (if 0 ≤ ci ∧ ci < (letters.length : Int)
      then letters.getD ci.toNat ' ' else 'A') = 'A' := by
    rw [if_neg]
    rintro ⟨h1, h2⟩
    rw [hlen6] at h2
    rcases hrange with ⟨h3, _⟩ | ⟨_, h4⟩
    · omega
    · omega
  have hidx : ∃ raw, pyIndex opts ci = some raw := by
    unfold pyIndex
    rcases hrange with ⟨h3, h4⟩ | ⟨h3, h4⟩
    · rw [if_pos ⟨by omega, h4⟩]
      have hlt : ci.toNat < opts.length := by omega
      exact ⟨_, List.getElem?_eq_getElem hlt⟩
    · rw [if_neg (by omega), if_pos ⟨h3, h4⟩]
      have hlt : ((opts.length : Int) + ci).toNat < opts.length := by omega
      exact ⟨_, List.getElem?_eq_getElem hlt⟩
  obtain ⟨raw, hraw⟩ := hidx
  refine ⟨"The correct answer is option ".data ++ 'A' :: ':' :: ' ' ::
      (to_spoken_english mode (labelBody raw) ++ ['.']), ?_, ?_⟩
  · simp only [build_answer_text, hraw, hletter]
  · exact ⟨to_spoken_english mode (labelBody raw) ++ ['.'], rfl⟩

theorem c3_witness : (["x".data, "y".data] : List (List Char)) ≠ [] ∧
    ((6 ≤ (-2 : Int) ∧ (-2 : Int) < ((["x".data, "y".data] : List (List Char)).length : Int)) ∨
      (-(((["x".data, "y".data] : List (List Char)).length : Int)) ≤ (-2 : Int) ∧
        (-2 : Int) < 0)) ∧
    (∃ s : List Char, build_answer_text RenderingMode.natural (-2) ["x".data, "y".data] =
        some s ∧ "The correct answer is option A: ".data <+: s) :=
  ⟨by decide, by decide,
    c3_amended_fallback_label_A RenderingMode.natural ["x".data, "y".data] (-2)
      (by decide) (by decide)⟩

/-! Structure of the option-rendering loop. -/

theorem render_option_eq (mode : RenderingMode) (i : Nat) (opt : List Char) :
    render_option mode i opt = (specLabel i opt).map (fun L =>
      "Option ".data ++ L :: ':' :: ' ' ::
        (to_spoken_english mode (labelBody opt) ++ ['.'])) := by
  rcases hm : matchLabel opt with _ | ⟨c, b⟩
  · simp only [render_option, specLabel, labelBody, hm]
    rcases hL : (letters[i]? : Option Char) with _ | ⟨L⟩ <;> simp [hL]
  · simp [render_option, specLabel, labelBody, hm]

theorem render_option_ne_nil (mode : RenderingMode) (i : Nat) (opt s : List Char)
    (h : render_option mode i opt = some s) : s ≠ [] := by
  rw [render_option_eq] at h
  rcases hL : specLabel i opt with _ | ⟨L⟩
  · rw [hL] at h; exact absurd h (by simp)
  · rw [hL] at h
    simp only [Option.map_some'] at h
    injection h with h
    subst h
    simp

theorem spoken_options_spec (mode : RenderingMode) :
    ∀ (os : List (List Char)) (i0 : Nat) (parts : List (List Char)),
      spoken_options mode i0 os = some parts →
      parts.length = os.length ∧
        ∀ (j : Nat) (hj : j < os.length),
          parts[j]? = render_option mode (i0 + j) (os.get ⟨j, hj⟩) := by
  intro os
  induction os with
  | nil =>
    intro i0 parts h
    rw [spoken_options] at h
    injection h with h
    subst h
    exact ⟨rfl, fun j hj => absurd hj (by simp)⟩
  | cons o os ih =>
    intro i0 parts h
    rw [spoken_options] at h
    rcases hro : render_option mode i0 o with _ | ⟨s⟩
    · rw [hro] at h; exact absurd h (by simp)
    · rw [hro] at h
      rcases hrec : spoken_options mode (i0 + 1) os with _ | ⟨r⟩
      · rw [hrec] at h; exact absurd h (by simp)
      · rw [hrec] at h
        injection h with h
        subst h
        obtain ⟨hlen, hspec⟩ := ih (i0 + 1) r hrec
        refine ⟨by simp [hlen], ?_⟩
        intro j hj
        match j with
        | 0 => simpa using hro.symm
        | j + 1 =>
          have hj' : j < os.length := by simpa using hj
          have := hspec j hj'
          rw [show i0 + 1 + j = i0 + (j + 1) from by omega] at this
          simpa using this

theorem spoken_options_parts_ne_nil (mode : RenderingMode) :
    ∀ (os : List (List Char)) (i0 : Nat) (parts : List (List Char)),
      spoken_options mode i0 os = some parts → ∀ p ∈ parts, p ≠ [] := by
  intro os
  induction os with
  | nil =>
    intro i0 parts h p hp
    rw [spoken_options] at h
    injection h with h
    subst h
    simp at hp
  | cons o os ih =>
    intro i0 parts h p hp
    rw [spoken_options] at h
    rcases hro : render_option mode i0 o with _ | ⟨s⟩
    · rw [hro] at h; exact absurd h (by simp)
    · rw [hro] at h
      rcases hrec : spoken_options mode (i0 + 1) os with _ | ⟨r⟩
      · rw [hrec] at h; exact absurd h (by simp)
      · rw [hrec] at h
        injection h with h
        subst h
        rcases List.mem_cons.mp hp with h1 | h1
        · exact h1 ▸ render_option_ne_nil mode i0 o s hro
        · exact ih (i0 + 1) r hrec p h1

theorem joinSep_ne_nil (sep : List Char) (ps : List (List Char)) (hne : ps ≠ [])
    (hps : ∀ p ∈ ps, p ≠ []) : joinSep sep ps ≠ [] := by
  match ps, hne with
  | [p], _ =>
    show p ≠ []
    exact hps p (List.mem_cons_self _ _)
  | p :: q :: t, _ =>
    show p ++ sep ++ joinSep sep (q :: t) ≠ []
    have : p ≠ [] := hps p (List.mem_cons_self _ _)
    simp [this]

theorem build_question_parts_inv (mode : RenderingMode) (qi : Nat) (topic q : List Char)
    (opts : List (List Char)) (pq po : List Char)
    (h : build_question_parts mode qi topic q opts = some (pq, po)) :
    ∃ parts : List (List Char), spoken_options mode 0 opts = some parts ∧
      pq = INTRO_PROMPT ++ ' ' :: (to_spoken_english mode q ++ ['.']) ∧
      po = joinSep [' '] parts := by
  rcases hso : spoken_options mode 0 opts with _ | ⟨parts⟩
  · rw [build_question_parts, hso] at h
    exact absurd h (by simp)
  · rw [build_question_parts, hso] at h
    injection h with h
    injection h with h1 h2
    exact ⟨parts, rfl, h1.symm, h2.symm⟩

theorem isEmpty_false_of_ne_nil {l : List Char} (h : l ≠ []) : l.isEmpty = false := by
  cases l with
  | nil => exact absurd rfl h
  | cons c cs => rfl

theorem build_answer_ne_nil (mode : RenderingMode) (ci : Int) (opts : List (List Char))
    (a : List Char) (h : build_answer_text mode ci opts = some a) : a ≠ [] := by
  rcases hraw : pyIndex opts ci with _ | ⟨raw⟩
  · rw [build_answer_text, hraw] at h
    exact absurd h (by simp)
  · rw [build_answer_text, hraw] at h
    injection h with h
    subst h
    simp

theorem spoken_answer_ne_nil (b : Bool) (ct : Option (List Char)) (mode : RenderingMode)
    (opts : List (List Char)) (a : List Char)
    (h : spoken_answer b ct mode opts = some a) : a ≠ [] := by
  cases b with
  | false => simp [spoken_answer] at h
  | true =>
    rcases ct with _ | ct'
    · simp [spoken_answer] at h
    · simp only [spoken_answer, if_true] at h
      rcases hp : pyParseInt (pyStrip ct') with _ | ⟨i⟩
      · simp only [hp] at h
        exact absurd h (by simp)
      · simp only [hp] at h
        by_cases hr : 0 ≤ i ∧ i < (opts.length : Int)
        · rw [if_pos hr] at h
          exact build_answer_ne_nil mode i opts a h
        · rw [if_neg hr] at h
          exact absurd h (by simp)

theorem spoken_explanation_ne_nil (b : Bool) (et : Option (List Char)) (mode : RenderingMode)
    (e : List Char) (h : spoken_explanation b et mode = some e) : e ≠ [] := by
  cases b with
  | false => simp [spoken_explanation] at h
  | true =>
    rcases et with _ | et'
    · simp [spoken_explanation] at h
    · simp only [spoken_explanation, if_true] at h
      by_cases hemp : et'.isEmpty = true
      · rw [if_pos hemp] at h
        exact absurd h (by simp)
      · rw [if_neg hemp] at h
        injection h with h
        subst h
        show build_explanation_text mode (pyStrip et') ≠ []
        simp [build_explanation_text]

/-- C5: with the separate-file switch off and an answer and explanation both
present, exactly one combined unit is produced besides the always-present
question and options units; its text is the four parts joined in order by
single spaces, and no separate answer or explanation unit exists. -/
theorem c5_combined_unit (mode : RenderingMode) (qi : Nat) (topic q : List Char)
    (opts : List (List Char)) (ct et : Option (List Char)) (pq po a e : List Char)
    (hbq : build_question_parts mode qi topic q opts = some (pq, po))
    (hne : opts ≠ [])
    (ha : spoken_answer true ct mode opts = some a)
    (he : spoken_explanation true et mode = some e) :
    speech_units false pq po (some a) (some e) =
      [(SpeechKind.question, pq), (SpeechKind.options, po),
        (SpeechKind.combined, pq ++ ' ' :: (po ++ ' ' :: (a ++ ' ' :: e)))] ∧
      (speech_units false pq po (some a) (some e)).map Prod.fst =
        [SpeechKind.question, SpeechKind.options, SpeechKind.combined] := by
  obtain ⟨parts, hso, hpq, hpo⟩ := build_question_parts_inv mode qi topic q opts pq po hbq
  have hpqne : pq ≠ [] := by
    rw [hpq]
    simp [INTRO_PROMPT]
  have hpone : po ≠ [] := by
    rw [hpo]
    apply joinSep_ne_nil
    · intro hp
      subst hp
      have := (spoken_options_spec mode opts 0 [] hso).1
      match opts, hne, this with
      | o :: os, _, this => simp at this
    · exact spoken_options_parts_ne_nil mode opts 0 parts hso
  have hane : a ≠ [] := spoken_answer_ne_nil true ct mode opts a ha
  have hene : e ≠ [] := spoken_explanation_ne_nil true et mode e he
  have h1 : speech_units false pq po (some a) (some e) =
      [(SpeechKind.question, pq), (SpeechKind.options, po),
        (SpeechKind.combined, pq ++ ' ' :: (po ++ ' ' :: (a ++ ' ' :: e)))] := by
    simp only [speech_units, optTruthy, optVal, isEmpty_false_of_ne_nil hane,
      isEmpty_false_of_ne_nil hene, isEmpty_false_of_ne_nil hpqne,
      isEmpty_false_of_ne_nil hpone, Bool.not_false, Bool.true_or, if_true,
      Bool.false_eq_true, if_false, List.filter]
    simp [joinSep]
  exact ⟨h1, by rw [h1]; rfl⟩

theorem c5_witness :
    build_question_parts RenderingMode.natural 1 [] "q".data ["y".data] =
      some ("Not so fast, I have a question for you. q.".data, "Option A: y.".data) ∧
    (["y".data] : List (List Char)) ≠ [] ∧
    spoken_answer true (some "0".data) RenderingMode.natural ["y".data] =
      some "The correct answer is option A: y.".data ∧
    spoken_explanation true (some "ex".data) RenderingMode.natural =
      some "Explanation: ex".data ∧
    (speech_units false "Not so fast, I have a question for you. q.".data
        "Option A: y.".data (some "The correct answer is option A: y.".data)
        (some "Explanation: ex".data) =
      [(SpeechKind.question, "Not so fast, I have a question for you. q.".data),
        (SpeechKind.options, "Option A: y.".data),
        (SpeechKind.combined, "Not so fast, I have a question for you. q.".data ++ ' ' ::
          ("Option A: y.".data ++ ' ' ::
            ("The correct answer is option A: y.".data ++ ' ' ::
              "Explanation: ex".data)))] ∧
      (speech_units false "Not so fast, I have a question for you. q.".data
          "Option A: y.".data (some "The correct answer is option A: y.".data)
          (some "Explanation: ex".data)).map Prod.fst =
        [SpeechKind.question, SpeechKind.options, SpeechKind.combined]) :=
  ⟨by decide, by decide, by decide, by decide,
    c5_combined_unit RenderingMode.natural 1 [] "q".data ["y".data] (some "0".data)
      (some "ex".data) "Not so fast, I have a question for you. q.".data
      "Option A: y.".data "The correct answer is option A: y.".data
      "Explanation: ex".data (by decide) (by decide) (by decide) (by decide)⟩

/-- C4: the label of each rendered option follows the reuse-or-sequence rule
(formalized by specLabel, written from the spec's words), and on the example
list the produced labels are A, B, C in order. -/
theorem c4_option_labels :
    (∀ (mode : RenderingMode) (qi : Nat) (topic q : List Char) (opts : List (List Char))
        (pq po : List Char), build_question_parts mode qi topic q opts = some (pq, po) →
        ∃ parts : List (List Char), spoken_options mode 0 opts = some parts ∧
          po = joinSep [' '] parts ∧ parts.length = opts.length ∧
          ∀ (i : Nat) (hi : i < opts.length), ∃ L : Char,
            specLabel i (opts.get ⟨i, hi⟩) = some L ∧
            parts[i]? = some ("Option ".data ++ L :: ':' :: ' ' ::
              (to_spoken_english mode (labelBody (opts.get ⟨i, hi⟩)) ++ ['.']))) ∧
      spoken_options RenderingMode.natural 0 ["A: x".data, "y".data, "z".data] =
        some ["Option A: x.".data, "Option B: y.".data, "Option C: z.".data] := by
  constructor
  · intro mode qi topic q opts pq po h
    obtain ⟨parts, hso, hpq, hpo⟩ := build_question_parts_inv mode qi topic q opts pq po h
    obtain ⟨hlen, hspec⟩ := spoken_options_spec mode opts 0 parts hso
    refine ⟨parts, hso, hpo, hlen, ?_⟩
    intro i hi
    have hidx := hspec i hi
    rw [Nat.zero_add, render_option_eq] at hidx
    rcases hv : parts[i]? with _ | ⟨v⟩
    · have hle := List.getElem?_eq_none_iff.mp hv
      rw [hlen] at hle
      omega
    · rw [hv] at hidx
      rcases hL : specLabel i (opts.get ⟨i, hi⟩) with _ | ⟨L⟩
      · rw [hL] at hidx
        simp at hidx
      · rw [hL, Option.map_some'] at hidx
        injection hidx with hidx
        exact ⟨L, rfl, congrArg some hidx⟩
  · decide

theorem c4_witness :
    build_question_parts RenderingMode.natural 1 [] "q".data ["A: x".data, "y".data] =
      some ("Not so fast, I have a question for you. q.".data,
        "Option A: x. Option B: y.".data) ∧
    (∃ parts : List (List Char),
      spoken_options RenderingMode.natural 0 ["A: x".data, "y".data] = some parts ∧
        "Option A: x. Option B: y.".data = joinSep [' '] parts ∧
        parts.length = (["A: x".data, "y".data] : List (List Char)).length ∧
        ∀ (i : Nat) (hi : i < (["A: x".data, "y".data] : List (List Char)).length),
          ∃ L : Char,
            specLabel i ((["A: x".data, "y".data] : List (List Char)).get ⟨i, hi⟩) = some L ∧
            parts[i]? = some ("Option ".data ++ L :: ':' :: ' ' ::
              (to_spoken_english RenderingMode.natural
                (labelBody ((["A: x".data, "y".data] : List (List Char)).get ⟨i, hi⟩))
                ++ ['.']))) :=
  ⟨by decide,
    c4_option_labels.1 RenderingMode.natural 1 [] "q".data ["A: x".data, "y".data]
      "Not so fast, I have a question for you. q.".data
      "Option A: x. Option B: y.".data (by decide)⟩

/-- C9: any options list with an unlabeled option at a zero-based position of
six or more makes the assembler index past the fixed six-letter table: in the
total embedding the whole build returns the error value none. -/
theorem c9_overflow_options_error (mode : RenderingMode) (qi : Nat) (topic q : List Char)
    (options : List (List Char)) (i : Nat) (hi : i < options.length) (h6 : 6 ≤ i)
    (hml : matchLabel (options.get ⟨i, hi⟩) = none) :
    build_question_parts mode qi topic q options = none := by
  have hL : (letters[i]? : Option Char) = none := by
    apply List.getElem?_eq_none
    simp [letters]
    omega
  have hro : render_option mode (0 + i) (options.get ⟨i, hi⟩) = none := by
    rw [Nat.zero_add]
    simp only [render_option, hml, hL]
  have hnone : spoken_options mode 0 options = none := by
    clear hml hL h6
    revert hro
    generalize 0 = i0
    intro hro
    induction options generalizing i0 i with
    | nil => simp at hi
    | cons o os ih =>
      rw [spoken_options]
      match i, hi, hro with
      | 0, _, hro =>
        rw [show i0 + 0 = i0 from rfl] at hro
        rw [show (o :: os).get ⟨0, by simp⟩ = o from rfl] at hro
        simp [hro]
      | i + 1, hi, hro =>
        rcases hro2 : render_option mode i0 o with _ | ⟨s⟩
        · simp [hro2]
        · have hi' : i < os.length := by simpa using hi
          have hro' : render_option mode (i0 + 1 + i) (os.get ⟨i, hi'⟩) = none := by
            rw [show i0 + 1 + i = i0 + (i + 1) from by omega]
            simpa using hro
          have := ih i hi' (i0 + 1) hro'
          simp [hro2, this]
  simp [build_question_parts, hnone]

theorem c9_witness :
    matchLabel ((["a".data, "b".data, "c".data, "d".data, "e".data, "f".data,
        "g".data] : List (List Char)).get ⟨6, by decide⟩) = none ∧
    build_question_parts RenderingMode.natural 1 [] "q".data
      ["a".data, "b".data, "c".data, "d".data, "e".data, "f".data, "g".data] = none :=
  ⟨by decide,
    c9_overflow_options_error RenderingMode.natural 1 [] "q".data
      ["a".data, "b".data, "c".data, "d".data, "e".data, "f".data, "g".data] 6
      (by decide) (by decide) (by decide)⟩

/-! Occurrence analysis for substrings of concatenations, used to show that
the assembler's templates never create the Topic or Question-number markers. -/

theorem prefix_append_cases (p a b : List Char) (h : p <+: a ++ b) :
    p <+: a ∨ ∃ q, p = a ++ q ∧ q <+: b := by
  by_cases hlen : p.length ≤ a.length
  · exact Or.inl (List.prefix_of_prefix_length_le h (List.prefix_append a b) hlen)
  · have ha : a <+: p :=
      List.prefix_of_prefix_length_le (List.prefix_append a b) h (by omega)
    obtain ⟨q, hq⟩ := ha
    obtain ⟨t, ht⟩ := h
    rw [← hq, List.append_assoc] at ht
    exact Or.inr ⟨q, hq.symm, ⟨t, List.append_cancel_left ht⟩⟩

theorem infix_append_cases (p a b : List Char) (h : p <:+: a ++ b) :
    p <:+: a ∨ p <:+: b ∨
      ∃ p₁ p₂, p = p₁ ++ p₂ ∧ p₁ ≠ [] ∧ p₂ ≠ [] ∧ p₁ <:+ a ∧ p₂ <+: b := by
  induction a with
  | nil => exact Or.inr (Or.inl (by simpa using h))
  | cons x a ih =>
    rw [List.cons_append] at h
    rcases List.infix_cons_iff.mp h with hpre | hinf
    · have hp : p <+: (x :: a) ++ b := by simpa using hpre
      rcases prefix_append_cases p (x :: a) b hp with h1 | ⟨q, hq, hqb⟩
      · exact Or.inl h1.isInfix
      · by_cases hq0 : q = []
        · subst hq0
          rw [List.append_nil] at hq
          exact Or.inl (hq ▸ List.infix_rfl)
        · exact Or.inr (Or.inr ⟨x :: a, q, hq, by simp, hq0, List.suffix_rfl, hqb⟩)
    · rcases ih hinf with h1 | h1 | ⟨p₁, p₂, he, h2, h3, hsuf, hpre2⟩
      · exact Or.inl (List.infix_cons h1)
      · exact Or.inr (Or.inl h1)
      · exact Or.inr (Or.inr ⟨p₁, p₂, he, h2, h3, hsuf.trans (List.suffix_cons x a), hpre2⟩)

theorem getLast?_mem_of (l : List Char) (c : Char) (h : l.getLast? = some c) : c ∈ l := by
  induction l with
  | nil => simp at h
  | cons x xs ih =>
    match xs, ih with
    | [], _ =>
      simp [List.getLast?] at h
      exact h ▸ List.mem_cons_self x []
    | y :: t, ih =>
      rw [List.getLast?_cons_cons] at h
      exact List.mem_cons_of_mem x (ih h)

theorem head?_mem_of (l : List Char) (c : Char) (h : l.head? = some c) : c ∈ l := by
  match l with
  | [] => simp at h
  | x :: xs =>
    simp at h
    exact h ▸ List.mem_cons_self x xs

theorem suffix_getLast? (p a : List Char) (h : p <:+ a) (hne : p ≠ []) :
    a.getLast? = p.getLast? := by
  obtain ⟨s, hs⟩ := h
  rw [← hs, List.getLast?_append]
  rcases hl : p.getLast? with _ | ⟨c⟩
  · exact absurd (List.getLast?_eq_none_iff.mp hl) hne
  · rfl

theorem prefix_head? (p b : List Char) (h : p <+: b) (hne : p ≠ []) :
    b.head? = p.head? := by
  obtain ⟨t, ht⟩ := h
  rw [← ht]
  match p, hne with
  | c :: cs, _ => rfl

theorem not_infix_append (p a b : List Char) (ha : ¬ p <:+: a) (hb : ¬ p <:+: b)
    (hspan : ∀ p₁ p₂, p = p₁ ++ p₂ → p₁ ≠ [] → p₂ ≠ [] → p₁ <:+ a → p₂ <+: b → False) :
    ¬ p <:+: a ++ b := by
  intro h
  rcases infix_append_cases p a b h with h1 | h1 | ⟨p₁, p₂, he, h2, h3, h4, h5⟩
  · exact ha h1
  · exact hb h1
  · exact hspan p₁ p₂ he h2 h3 h4 h5

theorem span_absurd_left (p a b : List Char) (c : Char) (hlast : a.getLast? = some c)
    (hc : c ∉ p) :
    ∀ p₁ p₂, p = p₁ ++ p₂ → p₁ ≠ [] → p₂ ≠ [] → p₁ <:+ a → p₂ <+: b → False := by
  intro p₁ p₂ he h1 _ h4 _
  have hgl := suffix_getLast? p₁ a h4 h1
  rw [hlast] at hgl
  have hc1 : c ∈ p₁ := getLast?_mem_of p₁ c hgl.symm
  exact hc (he ▸ List.mem_append.mpr (Or.inl hc1))

theorem span_absurd_right (p a b : List Char) (c : Char) (hhead : b.head? = some c)
    (hc : c ∉ p) :
    ∀ p₁ p₂, p = p₁ ++ p₂ → p₁ ≠ [] → p₂ ≠ [] → p₁ <:+ a → p₂ <+: b → False := by
  intro p₁ p₂ he _ h2 _ h5
  have hh := prefix_head? p₂ b h5 h2
  rw [hhead] at hh
  have hc1 : c ∈ p₂ := head?_mem_of p₂ c hh.symm
  exact hc (he ▸ List.mem_append.mpr (Or.inr hc1))

theorem infix_head_at (p l : List Char) (h : p <:+: l) (hne : p ≠ []) :
    ∃ n, n + p.length ≤ l.length ∧ l[n]? = p.head? := by
  obtain ⟨s, t, hst⟩ := h
  refine ⟨s.length, ?_, ?_⟩
  · rw [← hst]
    simp
  · rw [← hst, List.append_assoc, List.getElem?_append_right (le_refl s.length)]
    match p, hne with
    | c :: cs, _ => simp

theorem dot_not_mem_qd (d : Char) (hd : d.isDigit = true) :
    '.' ∉ questionMarker ++ [d] := by
  intro hm
  rcases List.mem_append.mp hm with h1 | h1
  · exact absurd h1 (by decide)
  · rw [← List.mem_singleton.mp h1] at hd
    exact absurd hd (by decide)

theorem span_take (d : Char) (p₁ p₂ : List Char) (he : questionMarker ++ [d] = p₁ ++ p₂)
    (h1 : p₁ ≠ []) (h2 : p₂ ≠ []) :
    p₁ = questionMarker.take p₁.length ∧ 0 < p₁.length ∧ p₁.length ≤ 9 := by
  have hp1 : p₁ <+: questionMarker ++ [d] := ⟨p₂, he.symm⟩
  have hlens : p₁.length + p₂.length = 10 := by
    have := congrArg List.length he
    simp [questionMarker] at this
    omega
  have hpos : 0 < p₁.length := List.length_pos.mpr h1
  have hp2pos : 0 < p₂.length := List.length_pos.mpr h2
  have hn9 : p₁.length ≤ 9 := by omega
  have htake : p₁ = (questionMarker ++ [d]).take p₁.length := List.prefix_iff_eq_take.mp hp1
  rw [List.take_append_of_le_length (by simp [questionMarker]; omega)] at htake
  exact ⟨htake, hpos, hn9⟩

theorem noQ_span_concrete (A B : List Char) (d : Char)
    (hfact : ∀ n, n < 10 → 0 < n → ¬ (questionMarker.take n <:+ A)) :
    ∀ p₁ p₂, questionMarker ++ [d] = p₁ ++ p₂ → p₁ ≠ [] → p₂ ≠ [] →
      p₁ <:+ A → p₂ <+: B → False := by
  intro p₁ p₂ he h1 h2 h4 _
  obtain ⟨htake, hpos, hn9⟩ := span_take d p₁ p₂ he h1 h2
  rw [htake] at h4
  exact hfact p₁.length (by omega) hpos h4

theorem noTopic_part_q (Sq : List Char) (h : NoTopic Sq) :
    NoTopic (INTRO_PROMPT ++ ' ' :: (Sq ++ ['.'])) := by
  have hre : INTRO_PROMPT ++ ' ' :: (Sq ++ ['.']) =
      (INTRO_PROMPT ++ [' ']) ++ (Sq ++ ['.']) := by simp
  unfold NoTopic
  rw [hre]
  apply not_infix_append
  · decide
  · apply not_infix_append
    · exact h
    · decide
    · exact span_absurd_right _ _ _ '.' rfl (by decide)
  · exact span_absurd_left _ _ _ ' ' (by decide) (by decide)

theorem noQDigit_part_q (Sq : List Char) (h : NoQDigit Sq) :
    NoQDigit (INTRO_PROMPT ++ ' ' :: (Sq ++ ['.'])) := by
  intro d hd
  have hre : INTRO_PROMPT ++ ' ' :: (Sq ++ ['.']) =
      (INTRO_PROMPT ++ [' ']) ++ (Sq ++ ['.']) := by simp
  rw [hre]
  apply not_infix_append
  · intro hinf
    have hQ : questionMarker <:+: INTRO_PROMPT ++ [' '] :=
      ((List.prefix_append questionMarker [d]).isInfix).trans hinf
    exact absurd hQ (by decide)
  · apply not_infix_append
    · exact h d hd
    · intro hinf
      have := hinf.length_le
      simp [questionMarker] at this
    · exact span_absurd_right _ _ _ '.' rfl (dot_not_mem_qd d hd)
  · exact noQ_span_concrete (INTRO_PROMPT ++ [' ']) (Sq ++ ['.']) d (by decide)

theorem noQ_span_option (L : Char) (B : List Char) (d : Char) :
    ∀ p₁ p₂, questionMarker ++ [d] = p₁ ++ p₂ → p₁ ≠ [] → p₂ ≠ [] →
      p₁ <:+ ("Option ".data ++ [L, ':', ' ']) → p₂ <+: B → False := by
  intro p₁ p₂ he h1 h2 h4 _
  obtain ⟨htake, hpos, hn9⟩ := span_take d p₁ p₂ he h1 h2
  by_cases hn : p₁.length = 9
  · have hq : p₁ = questionMarker := by
      rw [htake, hn]
      decide
    rw [hq] at h4
    obtain ⟨s, hs⟩ := h4
    have hslen : s.length = 1 := by
      have := congrArg List.length hs
      simp [questionMarker] at this
      omega
    have h1q : (s ++ questionMarker)[1]? = some 'Q' := by
      rw [List.getElem?_append_right (by omega), hslen]
      decide
    rw [hs] at h1q
    rw [List.getElem?_append_left (by decide)] at h1q
    exact absurd h1q (by decide)
  · have hglA : (("Option ".data ++ [L, ':', ' '] : List Char)).getLast? = some ' ' := by
      rw [List.getLast?_append]
      rfl
    have hgl := suffix_getLast? p₁ _ h4 h1
    rw [hglA] at hgl
    rw [htake] at hgl
    have hfact : ∀ n, n < 9 → ¬ ((questionMarker.take n).getLast? = some ' ') := by decide
    exact hfact p₁.length (by omega) hgl.symm

theorem part_template_facts (L : Char) (body : List Char)
    (hT : NoTopic body) (hQ : NoQDigit body) :
    NoTopic ("Option ".data ++ L :: ':' :: ' ' :: (body ++ ['.'])) ∧
      NoQDigit ("Option ".data ++ L :: ':' :: ' ' :: (body ++ ['.'])) ∧
      ("Option ".data ++ L :: ':' :: ' ' :: (body ++ ['.'])).getLast? = some '.' := by
  have hre : "Option ".data ++ L :: ':' :: ' ' :: (body ++ ['.']) =
      ("Option ".data ++ [L, ':', ' ']) ++ (body ++ ['.']) := by simp
  have hglA : (("Option ".data ++ [L, ':', ' '] : List Char)).getLast? = some ' ' := by
    rw [List.getLast?_append]
    rfl
  refine ⟨?_, ?_, ?_⟩
  · unfold NoTopic
    rw [hre]
    apply not_infix_append
    · intro hinf
      obtain ⟨n, hn, hat⟩ := infix_head_at _ _ hinf (by decide)
      simp [topicMarker] at hn
      have hlt : n < ("Option ".data : List Char).length := by simp; omega
      rw [List.getElem?_append_left hlt] at hat
      rw [show ((topicMarker : List Char).head?) = some 'T' from rfl] at hat
      have hfalse : ∀ m, m < 7 → ¬ ((("Option ".data : List Char))[m]? = some 'T') := by
        decide
      exact hfalse n (by omega) hat
    · apply not_infix_append
      · exact hT
      · decide
      · exact span_absurd_right _ _ _ '.' rfl (by decide)
    · exact span_absurd_left _ _ _ ' ' hglA (by decide)
  · intro d hd
    rw [hre]
    apply not_infix_append
    · intro hinf
      have hlen10 : (questionMarker ++ [d]).length =
          (("Option ".data ++ [L, ':', ' '] : List Char)).length := by
        simp [questionMarker]
      have heq := hinf.eq_of_length hlen10
      have hhd : (questionMarker ++ [d]).head? = some 'Q' := rfl
      rw [heq] at hhd
      injection hhd with hOQ
      exact absurd hOQ (by decide)
    · apply not_infix_append
      · exact hQ d hd
      · intro hinf
        have := hinf.length_le
        simp [questionMarker] at this
      · exact span_absurd_right _ _ _ '.' rfl (dot_not_mem_qd d hd)
    · exact noQ_span_option L (body ++ ['.']) d
  · rw [hre, List.getLast?_append, List.getLast?_append]
    rfl

theorem joinSep_markers : ∀ parts : List (List Char),
    (∀ p ∈ parts, NoTopic p ∧ NoQDigit p ∧ p.getLast? = some '.') →
    NoTopic (joinSep [' '] parts) ∧ NoQDigit (joinSep [' '] parts) := by
  intro parts
  induction parts with
  | nil =>
    intro _
    constructor
    · intro hinf
      exact absurd (List.infix_nil.mp hinf) (by decide)
    · intro d _ hinf
      have := List.infix_nil.mp hinf
      simp [questionMarker] at this
  | cons p ps ih =>
    intro hps
    obtain ⟨hpT, hpQ, hpL⟩ := hps p (List.mem_cons_self _ _)
    match ps, ih, hps with
    | [], _, _ => exact ⟨hpT, hpQ⟩
    | q :: t, ih, hps =>
      have hrest := ih (fun r hr => hps r (List.mem_cons_of_mem _ hr))
      have hre : joinSep [' '] (p :: q :: t) = p ++ (' ' :: joinSep [' '] (q :: t)) := by
        show p ++ [' '] ++ joinSep [' '] (q :: t) = _
        simp
      constructor
      · unfold NoTopic
        rw [hre]
        apply not_infix_append
        · exact hpT
        · show ¬ topicMarker <:+: [' '] ++ joinSep [' '] (q :: t)
          apply not_infix_append
          · decide
          · exact hrest.1
          · exact span_absurd_left _ _ _ ' ' rfl (by decide)
        · exact span_absurd_left _ _ _ '.' hpL (by decide)
      · intro d hd
        rw [hre]
        apply not_infix_append
        · exact hpQ d hd
        · show ¬ (questionMarker ++ [d]) <:+: [' '] ++ joinSep [' '] (q :: t)
          apply not_infix_append
          · intro hinf
            have := hinf.length_le
            simp [questionMarker] at this
          · exact hrest.2 d hd
          · intro p₁ p₂ he h1 h2 h4 h5
            have hone : p₁ = [' '] := by
              obtain ⟨s, hs⟩ := h4
              rcases s with _ | ⟨x, s'⟩
              · simpa using hs
              · exfalso
                injection hs with _ hs2
                exact h1 (List.append_eq_nil.mp hs2).2
            have hp1 : p₁ <+: questionMarker ++ [d] := ⟨p₂, he.symm⟩
            rw [hone] at hp1
            have hh := prefix_head? _ _ hp1 (by simp)
            injection hh with hQsp
            exact absurd hQsp (by decide)
        · exact span_absurd_left _ _ _ '.' hpL (dot_not_mem_qd d hd)

theorem noTopic_of_no_T (l : List Char) (h : 'T' ∉ l) : NoTopic l := fun hinf =>
  h (hinf.subset (by decide : 'T' ∈ topicMarker))

theorem noQDigit_of_no_Q (l : List Char) (h : 'Q' ∉ l) : NoQDigit l := fun d _ hinf =>
  h (hinf.subset (List.mem_append.mpr (Or.inl (by decide : 'Q' ∈ questionMarker))))

theorem spoken_options_markers (mode : RenderingMode) :
    ∀ (os : List (List Char)) (i0 : Nat) (parts : List (List Char)),
      spoken_options mode i0 os = some parts →
      (∀ o ∈ os, NoTopic (to_spoken_english mode (labelBody o)) ∧
        NoQDigit (to_spoken_english mode (labelBody o))) →
      ∀ p ∈ parts, NoTopic p ∧ NoQDigit p ∧ p.getLast? = some '.' := by
  intro os
  induction os with
  | nil =>
    intro i0 parts h _ p hp
    rw [spoken_options] at h
    injection h with h
    subst h
    simp at hp
  | cons o os ih =>
    intro i0 parts h hos p hp
    rw [spoken_options] at h
    rcases hro : render_option mode i0 o with _ | ⟨s⟩
    · rw [hro] at h
      exact absurd h (by simp)
    · rw [hro] at h
      rcases hrec : spoken_options mode (i0 + 1) os with _ | ⟨r⟩
      · rw [hrec] at h
        exact absurd h (by simp)
      · rw [hrec] at h
        injection h with h
        subst h
        rcases List.mem_cons.mp hp with h1 | h1
        · subst h1
          rw [render_option_eq] at hro
          rcases hL : specLabel i0 o with _ | ⟨L⟩
          · rw [hL] at hro
            exact absurd hro (by simp)
          · rw [hL, Option.map_some'] at hro
            injection hro with hro
            rw [← hro]
            obtain ⟨hoT, hoQ⟩ := hos o (List.mem_cons_self _ _)
            exact part_template_facts L _ hoT hoQ
        · exact ih (i0 + 1) r hrec (fun o' ho' => hos o' (List.mem_cons_of_mem _ ho')) p h1

/-- C7 fails as stated: a question whose own text is the word Topic makes the
question segment contain the Topic substring — the assembler echoes the
question text verbatim. -/
theorem c7_counterexample :
    build_question_parts RenderingMode.natural 1 [] "Topic".data [] =
      some ("Not so fast, I have a question for you. Topic.".data, []) ∧
      topicMarker <:+: "Not so fast, I have a question for you. Topic.".data := by
  exact ⟨by decide, by decide⟩

/-- C7 amended: the assembler itself never creates the markers — whenever the
normalized question text and the normalized option bodies are free of the
substring Topic and of the substring Question-space-digit, both produced
segments are also free of them; the fixed intro and option templates cannot
combine with any body text to form either marker. -/
theorem c7_amended_no_markers (mode : RenderingMode) (qi : Nat) (topic q : List Char)
    (opts : List (List Char)) (pq po : List Char)
    (h : build_question_parts mode qi topic q opts = some (pq, po))
    (hqT : NoTopic (to_spoken_english mode q))
    (hqQ : NoQDigit (to_spoken_english mode q))
    (ho : ∀ o ∈ opts, NoTopic (to_spoken_english mode (labelBody o)) ∧
      NoQDigit (to_spoken_english mode (labelBody o))) :
    (NoTopic pq ∧ NoQDigit pq) ∧ (NoTopic po ∧ NoQDigit po) := by
  obtain ⟨parts, hso, hpq, hpo⟩ := build_question_parts_inv mode qi topic q opts pq po h
  constructor
  · rw [hpq]
    exact ⟨noTopic_part_q _ hqT, noQDigit_part_q _ hqQ⟩
  · rw [hpo]
    exact joinSep_markers parts (spoken_options_markers mode opts 0 parts hso ho)

theorem c7_witness :
    build_question_parts RenderingMode.natural 1 [] "x".data ["y".data] =
      some ("Not so fast, I have a question for you. x.".data, "Option A: y.".data) ∧
      NoTopic (to_spoken_english RenderingMode.natural "x".data) ∧
      (NoTopic "Not so fast, I have a question for you. x.".data ∧
        NoQDigit "Not so fast, I have a question for you. x.".data) ∧
      (NoTopic "Option A: y.".data ∧ NoQDigit "Option A: y.".data) := by
  have hmain := c7_amended_no_markers RenderingMode.natural 1 [] "x".data ["y".data]
    "Not so fast, I have a question for you. x.".data "Option A: y.".data
    (by decide) (by decide) (noQDigit_of_no_Q _ (by decide))
    (by
      intro o ho
      rw [List.mem_singleton.mp ho]
      exact ⟨by decide, noQDigit_of_no_Q _ (by decide)⟩)
  exact ⟨by decide, by decide, hmain.1, hmain.2⟩

theorem c2_witness :
    cleanStr "x".data ∧ (∀ o ∈ (["y".data] : List (List Char)), cleanStr o) ∧
      build_question_parts RenderingMode.natural 1 [] "x".data ["y".data] =
        some ("Not so fast, I have a question for you. x.".data, "Option A: y.".data) ∧
      cleanStr "Not so fast, I have a question for you. x.".data ∧
      cleanStr "Option A: y.".data :=
  ⟨by decide, by decide, by decide,
    c2_amended_segments_clean.1 RenderingMode.natural 1 [] "x".data ["y".data]
      "Not so fast, I have a question for you. x.".data "Option A: y.".data
      (by decide) (by decide) (by decide)⟩

end QTTS
